import Mathlib

/-!
Verification of the cjson library (src/cjson.c, src/cjson.h): a shallow
embedding of the parser, serializer, equality test and destructor, together
with an IEEE-754 binary64 model for the number codec (`strtod` and the
`%.17g` formatting are external libc routines; they are modelled from the
specification as correctly rounded conversions).

Bytes are modelled as natural numbers; a C string is a `List Nat` and the
terminating NUL of the C string is represented by the end of the list (the
parser treats a 0 byte exactly as the C code treats the terminator, so a
list with an interior 0 behaves like the C string that stops there).
-/

/-- Reading `*p` in C: the head of the remaining input, or the NUL
terminator 0 at the end of the string. -/
def hd0 (s : List Nat) : Nat := s.headD 0

/-- ISDIGIT from cjson.c line 18. -/
def isdig (b : Nat) : Bool := 48 ≤ b && b ≤ 57

/-- ISDIGIT1TO9 from cjson.c line 19. -/
def isdig19 (b : Nat) : Bool := 49 ≤ b && b ≤ 57

/-- Round-half-to-even integer division: the nearest integer to `n / d`,
ties going to the even neighbour.  This is the rounding used by the
binary64 model of the libc conversions. -/
def rdiv (n d : Nat) : Nat :=
  let q := n / d
  let r := n % d
  if d < 2 * r || (2 * r == d && q % 2 == 1) then q + 1 else q

/-- Binary exponentiation, equal to `b ^ e` (see `bpow_eq`): evaluation
has logarithmic recursion depth, which keeps the kernel from overflowing
its stack on the huge powers arising in the number codec. -/
def bpowAux : Nat → Nat → Nat → Nat
  | 0, _, _ => 1
  | f + 1, b, e =>
    if e = 0 then 1
    else
      let h := bpowAux f (b * b) (e / 2)
      if e % 2 = 1 then b * h else h

def bpow (b e : Nat) : Nat := bpowAux e b e

/-- Smallest exponent `k` in the doubling sequence `k0, 2*k0, 4*k0, ...`
with `n < 2 ^ k`.  Fuel-based with logarithmic recursion depth, so the
kernel can evaluate it on numbers with tens of thousands of bits. -/
def pow2Above : Nat → Nat → Nat → Nat
  | 0, _, k => k
  | f + 1, n, k => if n < bpow 2 k then k else pow2Above f n (2 * k)

/-- Binary search for `lo` with `2 ^ lo ≤ n < 2 ^ (lo + 1)`, maintaining
the invariant `2 ^ lo ≤ n < 2 ^ hi`. -/
def nbSearch : Nat → Nat → Nat → Nat → Nat
  | 0, _, lo, _ => lo
  | f + 1, n, lo, hi =>
    if hi ≤ lo + 1 then lo
    else
      let mid := (lo + hi) / 2
      if n < bpow 2 mid then nbSearch f n lo mid else nbSearch f n mid hi

/-- Number of binary digits of `n` (0 for 0): `nbits n = Nat.log2 n + 1`
for `n > 0`, with logarithmic evaluation depth. -/
def nbits (n : Nat) : Nat :=
  if n = 0 then 0 else nbSearch (2 * n + 2) n 0 (pow2Above n n 1) + 1

/-- The base-10 digits of `n`, most significant first, as ASCII codes.
Fuel-based for kernel evaluation. -/
def digitsAux : Nat → Nat → List Nat → List Nat
  | 0, _, acc => acc
  | f + 1, n, acc =>
    if n < 10 then (48 + n) :: acc else digitsAux f (n / 10) ((48 + n % 10) :: acc)

def natDigits (n : Nat) : List Nat := digitsAux n n []

/-- Numeric value of a string of ASCII digits (most significant first). -/
def digitsVal (ds : List Nat) : Nat := ds.foldl (fun a d => a * 10 + (d - 48)) 0

/-- Number of decimal digits of `n` (1 for 0). -/
def digitCount (n : Nat) : Nat := (natDigits n).length

/-- Decide `2 ^ E * den ≤ num` for an integer exponent `E`. -/
def pow2le (E : Int) (num den : Nat) : Bool :=
  if 0 ≤ E then bpow 2 E.toNat * den ≤ num else den ≤ num * bpow 2 (-E).toNat

/-- The binary logarithm of the positive rational `num / den`, rounded
down: the unique `E` with `2 ^ E ≤ num / den < 2 ^ (E + 1)`. -/
def qlog2 (num den : Nat) : Int :=
  let c : Int := (nbits num : Int) - (nbits den : Int)
  if pow2le c num den then c else c - 1

/-- The decimal logarithm of the positive rational `num / den`, rounded
down: the unique `X` with `10 ^ X ≤ num / den < 10 ^ (X + 1)`. -/
def qlog10 (num den : Nat) : Int :=
  if den ≤ num then (digitCount (num / den) : Int) - 1
  else -(digitCount ((den - 1) / num) : Int)

/-- An IEEE-754 binary64 value, represented by its three bit fields:
sign bit, 11-bit biased exponent, 52-bit fraction.  This models the C
`double` payload of a Number value. -/
structure F64 where
  sign : Bool
  exp : Nat
  frac : Nat
deriving DecidableEq, Repr

/-- Well-formed bit fields. -/
def F64.wf (d : F64) : Prop := d.exp ≤ 2047 ∧ d.frac < 2 ^ 52

instance (d : F64) : Decidable d.wf := by unfold F64.wf; infer_instance

def F64.isNan (d : F64) : Bool := d.exp == 2047 && d.frac != 0

def F64.isInf (d : F64) : Bool := d.exp == 2047 && d.frac == 0

def F64.isZero (d : F64) : Bool := d.exp == 0 && d.frac == 0

def F64.finite (d : F64) : Bool := d.exp < 2047

/-- The magnitude of a finite binary64 as an exact rational. -/
def F64.mag (d : F64) : ℚ :=
  if d.exp = 0 then (d.frac : ℚ) / 2 ^ 1074
  else ((2 ^ 52 + d.frac : ℚ) * 2 ^ d.exp) / 2 ^ 1075

/-- The signed value of a finite binary64 as an exact rational. -/
def F64.toQ (d : F64) : ℚ := if d.sign then -d.mag else d.mag

/-- The positive zero. -/
def F64.pzero : F64 := ⟨false, 0, 0⟩

/-- The negative zero. -/
def F64.mzero : F64 := ⟨true, 0, 0⟩

/-- The C `==` (equivalently the negation of `!=`) on doubles, at the bit
level: NaN is unequal to everything, the two zeros are equal, and all other
values are equal exactly when their representations coincide. -/
def f64_eq (a b : F64) : Bool :=
  if a.isNan || b.isNan then false
  else if a.isZero && b.isZero then true
  else a == b

/-- The magnitude of a finite binary64 as a pair `num / den` of natural
numbers (exact). -/
def F64.magND (d : F64) : Nat × Nat :=
  if d.exp = 0 then (d.frac, bpow 2 1074)
  else if 1075 ≤ d.exp then ((2 ^ 52 + d.frac) * bpow 2 (d.exp - 1075), 1)
  else (2 ^ 52 + d.frac, bpow 2 (1075 - d.exp))

/-- Modelled from the spec: the "best-available decimal-to-float routine"
(libc `strtod`, not part of src/) converts the exact decimal value
`± N · 10 ^ E10` to the nearest binary64, ties to even, returning
±infinity on overflow and a signed zero on underflow to zero. -/
def strtodCore (neg : Bool) (N : Nat) (E10 : Int) : F64 :=
  if N = 0 then ⟨neg, 0, 0⟩ else
  let num := if 0 ≤ E10 then N * bpow 10 E10.toNat else N
  let den := if 0 ≤ E10 then 1 else bpow 10 (-E10).toNat
  let E2 := qlog2 num den
  let e : Int := max (E2 - 52) (-1074)
  let n := if 0 ≤ e then num else num * bpow 2 (-e).toNat
  let d := if 0 ≤ e then den * bpow 2 e.toNat else den
  let sig0 := rdiv n d
  let sig := if sig0 = 2 ^ 53 then 2 ^ 52 else sig0
  let e' := if sig0 = 2 ^ 53 then e + 1 else e
  if 972 ≤ e' then ⟨neg, 2047, 0⟩
  else if sig < 2 ^ 52 then ⟨neg, 0, sig⟩
  else ⟨neg, (e' + 1075).toNat, sig - 2 ^ 52⟩

/-- Drop trailing '0' digits. -/
def stripZeros (ds : List Nat) : List Nat := (ds.reverse.dropWhile (· == 48)).reverse

/-- Pad a digit string to at least two digits (C `%e` exponent field). -/
def pad2 (ds : List Nat) : List Nat := if ds.length < 2 then 48 :: ds else ds

/-- The exponent part `e±XX` of scientific notation. -/
def expPart (X : Int) : List Nat :=
  [101] ++ (if X < 0 then [45] else [43]) ++ pad2 (natDigits X.natAbs)

/-- Modelled from the spec: `%g`-style formatting of the positive rational
`num / den` at 17 significant decimal digits (libc `sprintf("%.17g")`, not
part of src/): round to 17 significant digits, use scientific notation when
the decimal exponent is below -4 or at least 17, and strip trailing zeros
of the fractional part. -/
def fmtMag (num den : Nat) : List Nat :=
  let X := qlog10 num den
  let k : Int := 16 - X
  let n := if 0 ≤ k then num * bpow 10 k.toNat else num
  let d := if 0 ≤ k then den else den * bpow 10 (-k).toNat
  let D0 := rdiv n d
  let D := if D0 = 10 ^ 17 then 10 ^ 16 else D0
  let X1 := if D0 = 10 ^ 17 then X + 1 else X
  let ds := natDigits D
  if X1 < -4 || 17 ≤ X1 then
    let m := stripZeros ds
    (m.take 1 ++ (if m.length ≤ 1 then [] else 46 :: m.drop 1)) ++ expPart X1
  else if X1 < 0 then
    [48, 46] ++ List.replicate (X1.natAbs - 1) 48 ++ stripZeros ds
  else
    ds.take (X1.toNat + 1) ++
      (let fr := stripZeros (ds.drop (X1.toNat + 1))
       if fr = [] then [] else 46 :: fr)

/-- Modelled from the spec: `%.17g` applied to a binary64 (the number
formatting used by `cjson_stringify_value`, cjson.c line 414). -/
def fmt17 (dd : F64) : List Nat :=
  let sgn : List Nat := if dd.sign then [45] else []
  if dd.exp = 2047 then
    if dd.frac = 0 then sgn ++ [105, 110, 102] else sgn ++ [110, 97, 110]
  else if dd.exp = 0 ∧ dd.frac = 0 then sgn ++ [48]
  else sgn ++ fmtMag dd.magND.1 dd.magND.2

/-- The parse status codes of cjson.h lines 47-63 (`CJSON_PARSE_OK` and
the error kinds; `parse_null` is the initial `CJSON_PARSE_NULL` value). -/
inductive cjson_state where
  | ok
  | expect_value
  | invalid_value
  | root_not_singular
  | number_too_big
  | miss_quotation_mark
  | invalid_string_escape
  | invalid_string_char
  | invalid_unicode_hex
  | invalid_unicode_surrogate
  | miss_comma_or_square_bracket
  | miss_key
  | miss_colon
  | miss_comma_or_curly_bracket
  | parse_null
deriving DecidableEq, Repr

/-- The value tree of cjson.h lines 28-42: a tagged union over the seven
`cjson_type` variants.  The extra constructor `unknown t` stands for a C
value whose `type` field holds a tag `t` outside the seven enumerated
variants (reachable in C because `type` is a plain enum field; exercised by
the serializer's failure path). -/
inductive cjson_value where
  | null
  | vtrue
  | vfalse
  | number (n : F64)
  | vstring (s : List Nat)
  | varray (elems : List cjson_value)
  | vobject (members : List (List Nat × cjson_value))
  | unknown (tag : Nat)

/-- The numeric `cjson_type` tag of a value (cjson.h lines 15-23). -/
def cjson_value.tag : cjson_value → Nat
  | .null => 0
  | .vtrue => 1
  | .vfalse => 2
  | .number _ => 3
  | .vstring _ => 4
  | .varray _ => 5
  | .vobject _ => 6
  | .unknown t => t

/-- cjson_parse_whitespace, cjson.c lines 78-84: skip space, tab, LF, CR. -/
def cjson_parse_whitespace (s : List Nat) : List Nat :=
  s.dropWhile (fun b => b == 32 || b == 9 || b == 10 || b == 13)

/-- cjson_parse_str, cjson.c lines 64-76: match a literal (`true`, `false`,
`null`); on success set the variant and advance, otherwise InvalidValue. -/
def cjson_parse_str (s lit : List Nat) (t : cjson_value) :
    Except cjson_state (cjson_value × List Nat) :=
  if s.take lit.length = lit then .ok (t, s.drop lit.length)
  else .error .invalid_value

/-- Value of one hex digit, per the three ranges in cjson.c lines 120-122. -/
def hexVal (b : Nat) : Option Nat :=
  if 48 ≤ b ∧ b ≤ 57 then some (b - 48)
  else if 65 ≤ b ∧ b ≤ 70 then some (b - 55)
  else if 97 ≤ b ∧ b ≤ 102 then some (b - 87)
  else none

/-- cjson_parse_hex4, cjson.c lines 114-126: read exactly four hex digits
(a missing byte reads as the NUL terminator, which is not a hex digit). -/
def cjson_parse_hex4 : List Nat → Option (Nat × List Nat)
  | a :: b :: c :: d :: rest =>
    match hexVal a, hexVal b, hexVal c, hexVal d with
    | some x, some y, some z, some w =>
      some (((x * 16 + y) * 16 + z) * 16 + w, rest)
    | _, _, _, _ => none
  | _ => none

/-- cjson_encode_utf8, cjson.c lines 128-144: standard 1/2/3/4-byte UTF-8
forms. -/
def cjson_encode_utf8 (u : Nat) : List Nat :=
  if u ≤ 0x7F then [u &&& 0xFF]
  else if u ≤ 0x7FF then
    [0xC0 ||| ((u >>> 6) &&& 0xFF), 0x80 ||| (u &&& 0x3F)]
  else if u ≤ 0xFFFF then
    [0xE0 ||| ((u >>> 12) &&& 0xFF), 0x80 ||| ((u >>> 6) &&& 0x3F),
     0x80 ||| (u &&& 0x3F)]
  else
    [0xF0 ||| ((u >>> 18) &&& 0xFF), 0x80 ||| ((u >>> 12) &&& 0x3F),
     0x80 ||| ((u >>> 6) &&& 0x3F), 0x80 ||| (u &&& 0x3F)]

/-- The result of one iteration of the scanning loop of
cjson_parse_string_raw: the closing quote (`done`), a run of decoded
bytes pushed onto the scratch buffer (`emit`), or a failure
(`cjson_parse_error`: truncate the scratch buffer and fail). -/
inductive strStepRes where
  | done (rest : List Nat)
  | emit (bytes : List Nat) (rest : List Nat)
  | fail (e : cjson_state)

/-- One iteration of the `while(1)` switch of cjson_parse_string_raw,
cjson.c lines 165-217.  The four reads of cjson_parse_hex4 are inlined
(see `cjson_parse_hex4_spec`); a missing byte reads as the NUL
terminator, which fails the corresponding check exactly as in C. -/
def cjson_string_step : List Nat → strStepRes
  | [] => .fail .miss_quotation_mark
  | ch :: p =>
    if ch = 34 then .done p
    else if ch = 92 then
      match p with
      | 34 :: p2 => .emit [34] p2
      | 92 :: p2 => .emit [92] p2
      | 47 :: p2 => .emit [47] p2
      | 98 :: p2 => .emit [8] p2
      | 102 :: p2 => .emit [12] p2
      | 110 :: p2 => .emit [10] p2
      | 114 :: p2 => .emit [13] p2
      | 116 :: p2 => .emit [9] p2
      | 117 :: a :: b :: c :: d :: p3 =>
        (match hexVal a, hexVal b, hexVal c, hexVal d with
        | some x, some y, some z, some w =>
          let u := ((x * 16 + y) * 16 + z) * 16 + w
          if 0xD800 ≤ u ∧ u ≤ 0xDBFF then
            match p3 with
            | 92 :: 117 :: a2 :: b2 :: c2 :: d2 :: p5 =>
              (match hexVal a2, hexVal b2, hexVal c2, hexVal d2 with
              | some x2, some y2, some z2, some w2 =>
                let u2 := ((x2 * 16 + y2) * 16 + z2) * 16 + w2
                if u2 < 0xDC00 ∨ 0xDFFF < u2 then .fail .invalid_unicode_surrogate
                else .emit
                  (cjson_encode_utf8 ((((u - 0xD800) <<< 10) ||| (u2 - 0xDC00)) + 0x10000)) p5
              | _, _, _, _ => .fail .invalid_unicode_hex)
            | 92 :: 117 :: _ => .fail .invalid_unicode_hex
            | _ => .fail .invalid_unicode_surrogate
          else .emit (cjson_encode_utf8 u) p3
        | _, _, _, _ => .fail .invalid_unicode_hex)
      | 117 :: _ => .fail .invalid_unicode_hex
      | _ :: _ => .fail .invalid_string_escape
      | [] => .fail .invalid_string_escape
    else if ch < 0x20 then .fail .invalid_string_char
    else .emit [ch] p

/-- The scanning loop of cjson_parse_string_raw, cjson.c lines 165-218.
`acc` is the scratch-buffer segment above the entry top (the decoded
bytes pushed so far).  The fuel only bounds the iteration count; every
iteration consumes at least one input byte, so the fuel supplied by
`cjson_parse_string_raw` is never exhausted (the fuel-0 answer is the
same MissQuotationMark the C code produces at the end of the input). -/
def cjson_parse_string_loop : Nat → List Nat → List Nat →
    Except cjson_state (List Nat × List Nat)
  | 0, _, _ => .error .miss_quotation_mark
  | f + 1, acc, s =>
    match cjson_string_step s with
    | .done rest => .ok (acc, rest)
    | .fail e => .error e
    | .emit bs rest => cjson_parse_string_loop f (acc ++ bs) rest

/-- cjson_parse_string_raw, cjson.c lines 160-219: `s` starts at the
opening quote; returns the decoded bytes and the rest of the input. -/
def cjson_parse_string_raw (s : List Nat) :
    Except cjson_state (List Nat × List Nat) :=
  cjson_parse_string_loop s.length [] (s.drop 1)

/-- Skip a run of ASCII digits (the `for (p++; ISDIGIT(*p); p++)` loops). -/
def skipDigits (s : List Nat) : List Nat := s.dropWhile isdig

/-- Modelled from the spec: libc `strtod` applied to a grammar-validated
number token.  (The C code hands `strtod` the whole remaining input and
separately advances its own cursor past the validated span; whenever a
parse returns Ok the longest `strtod` prefix coincides with the validated
span, so applying the conversion to the span is observationally equal.) -/
def strtodTok (tok : List Nat) : F64 :=
  let neg := hd0 tok = 45
  let t0 := if neg then tok.drop 1 else tok
  let ip := t0.takeWhile isdig
  let t1 := t0.dropWhile isdig
  let fp := if hd0 t1 = 46 then (t1.drop 1).takeWhile isdig else []
  let t2 := if hd0 t1 = 46 then (t1.drop 1).dropWhile isdig else t1
  let et := if hd0 t2 = 101 ∨ hd0 t2 = 69 then
      (let t3 := t2.drop 1
       if hd0 t3 = 45 then (true, (t3.drop 1).takeWhile isdig)
       else if hd0 t3 = 43 then (false, (t3.drop 1).takeWhile isdig)
       else (false, t3.takeWhile isdig))
    else (false, [])
  let N := digitsVal (ip ++ fp)
  let E10 : Int :=
    (if et.1 then -(digitsVal et.2 : Int) else (digitsVal et.2 : Int)) - fp.length
  strtodCore neg N E10

/-- cjson_parse_number, cjson.c lines 86-112: one-pass grammar validation,
then conversion with overflow detection (`errno == ERANGE` together with a
`±HUGE_VAL` result means the conversion overflowed to ±infinity). -/
def cjson_parse_number (s : List Nat) : Except cjson_state (F64 × List Nat) :=
  let p0 := if hd0 s = 45 then s.drop 1 else s
  let p1opt : Option (List Nat) :=
    if hd0 p0 = 48 then some (p0.drop 1)
    else if isdig19 (hd0 p0) then some (skipDigits p0)
    else none
  match p1opt with
  | none => .error .invalid_value
  | some p1 =>
    let p2opt : Option (List Nat) :=
      if hd0 p1 = 46 then
        (if isdig (hd0 (p1.drop 1)) then some (skipDigits (p1.drop 1)) else none)
      else some p1
    match p2opt with
    | none => .error .invalid_value
    | some p2 =>
      let p3opt : Option (List Nat) :=
        if hd0 p2 = 101 ∨ hd0 p2 = 69 then
          (let q := if hd0 (p2.drop 1) = 43 ∨ hd0 (p2.drop 1) = 45
                    then p2.drop 2 else p2.drop 1
           if isdig (hd0 q) then some (skipDigits q) else none)
        else some p2
      match p3opt with
      | none => .error .invalid_value
      | some p3 =>
        let d := strtodTok (s.take (s.length - p3.length))
        if d.exp = 2047 then .error .number_too_big
        else .ok (d, p3)

/-- cjson_parse_string, cjson.c lines 221-229: decode the raw bytes and
copy them into a fresh String value (`cjson_set_string`). -/
def cjson_parse_string (s : List Nat) :
    Except cjson_state (cjson_value × List Nat) :=
  match cjson_parse_string_raw s with
  | .error e => .error e
  | .ok (str, rest) => .ok (.vstring str, rest)

/- The mutually recursive parser of cjson.c lines 234-351, with an
explicit fuel argument (`none` means the fuel ran out; the top-level entry
supplies enough fuel, see the sufficiency theorem below).  Each function
takes the remaining input and returns the error state or the parsed value
and the rest of the input. -/
mutual

/-- cjson_parse_value, cjson.c lines 340-351: dispatch on the first byte. -/
def cjson_parse_value : Nat → List Nat →
    Option (Except cjson_state (cjson_value × List Nat))
  | 0, _ => none
  | fuel + 1, s =>
    match hd0 s with
    | 116 => some (cjson_parse_str s [116, 114, 117, 101] .vtrue)
    | 102 => some (cjson_parse_str s [102, 97, 108, 115, 101] .vfalse)
    | 110 => some (cjson_parse_str s [110, 117, 108, 108] .null)
    | 34 => some (cjson_parse_string s)
    | 91 => cjson_parse_array fuel s
    | 123 => cjson_parse_object fuel s
    | 0 => some (.error .expect_value)
    | _ => some (match cjson_parse_number s with
                 | .error e => .error e
                 | .ok (n, rest) => .ok (.number n, rest))

/-- cjson_parse_array, cjson.c lines 234-274 (entry: `[` and the empty
case). -/
def cjson_parse_array : Nat → List Nat →
    Option (Except cjson_state (cjson_value × List Nat))
  | 0, _ => none
  | fuel + 1, s =>
    let s1 := cjson_parse_whitespace (s.drop 1)
    if hd0 s1 = 93 then some (.ok (.varray [], s1.drop 1))
    else cjson_parse_array_loop fuel [] s1

/-- The element loop of cjson_parse_array, cjson.c lines 246-268; `acc`
holds the elements staged on the scratch stack. -/
def cjson_parse_array_loop : Nat → List cjson_value → List Nat →
    Option (Except cjson_state (cjson_value × List Nat))
  | 0, _, _ => none
  | fuel + 1, acc, s =>
    match cjson_parse_value fuel s with
    | none => none
    | some (.error e) => some (.error e)
    | some (.ok (v, rest)) =>
      let acc1 := acc ++ [v]
      let rest1 := cjson_parse_whitespace rest
      if hd0 rest1 = 44 then
        cjson_parse_array_loop fuel acc1 (cjson_parse_whitespace (rest1.drop 1))
      else if hd0 rest1 = 93 then some (.ok (.varray acc1, rest1.drop 1))
      else some (.error .miss_comma_or_square_bracket)

/-- cjson_parse_object, cjson.c lines 276-338 (entry: `{` and the empty
case). -/
def cjson_parse_object : Nat → List Nat →
    Option (Except cjson_state (cjson_value × List Nat))
  | 0, _ => none
  | fuel + 1, s =>
    let s1 := cjson_parse_whitespace (s.drop 1)
    if hd0 s1 = 125 then some (.ok (.vobject [], s1.drop 1))
    else cjson_parse_object_loop fuel [] s1

/-- The member loop of cjson_parse_object, cjson.c lines 289-330; `acc`
holds the members staged on the scratch stack.  A failure resets the out
value to the Null variant (line 336), which the top level models. -/
def cjson_parse_object_loop : Nat → List (List Nat × cjson_value) → List Nat →
    Option (Except cjson_state (cjson_value × List Nat))
  | 0, _, _ => none
  | fuel + 1, acc, s =>
    if hd0 s ≠ 34 then some (.error .miss_key)
    else match cjson_parse_string_raw s with
    | .error e => some (.error e)
    | .ok (key, rest) =>
      let rest1 := cjson_parse_whitespace rest
      if hd0 rest1 ≠ 58 then some (.error .miss_colon)
      else match cjson_parse_value fuel (cjson_parse_whitespace (rest1.drop 1)) with
      | none => none
      | some (.error e) => some (.error e)
      | some (.ok (v, rest2)) =>
        let acc1 := acc ++ [(key, v)]
        let rest3 := cjson_parse_whitespace rest2
        if hd0 rest3 = 44 then
          cjson_parse_object_loop fuel acc1 (cjson_parse_whitespace (rest3.drop 1))
        else if hd0 rest3 = 125 then some (.ok (.vobject acc1, rest3.drop 1))
        else some (.error .miss_comma_or_curly_bracket)

end

/-- Fuel that always suffices for `cjson_parse_value` (three units per
input byte plus a constant, cf. the sufficiency theorem below). -/
def parseFuel (s : List Nat) : Nat := 3 * s.length + 3

/-- cjson_parse, cjson.c lines 353-375, for a non-NULL input string.  The
returned pair is the status and the final state of the out-parameter
value (the parser clears it to Null first and every error path leaves it
Null).  The `none` fallback of the fuelled parser is unreachable and maps
to the initial `CJSON_PARSE_NULL` status. -/
def cjson_parse (s : List Nat) : cjson_state × cjson_value :=
  let s1 := cjson_parse_whitespace s
  match cjson_parse_value (parseFuel s1) s1 with
  | none => (.parse_null, .null)
  | some (.error e) => (e, .null)
  | some (.ok (v, rest)) =>
    let rest1 := cjson_parse_whitespace rest
    if hd0 rest1 ≠ 0 then (.root_not_singular, .null)
    else (.ok, v)

/-- The upper-case hex digit table of cjson.c line 378. -/
def hexDigitU (n : Nat) : Nat := if n < 10 then 48 + n else 55 + n

/-- The per-byte escaping of cjson_stringify_string, cjson.c lines 384-401:
quote and backslash escaped, the five short escapes, `\u00XX` with
upper-case hex for other bytes below 0x20, everything else verbatim. -/
def cjson_escape_byte (ch : Nat) : List Nat :=
  if ch = 34 then [92, 34]
  else if ch = 92 then [92, 92]
  else if ch = 8 then [92, 98]
  else if ch = 12 then [92, 102]
  else if ch = 10 then [92, 110]
  else if ch = 13 then [92, 114]
  else if ch = 9 then [92, 116]
  else if ch < 0x20 then [92, 117, 48, 48, hexDigitU (ch >>> 4), hexDigitU (ch &&& 15)]
  else [ch]

/-- cjson_stringify_string, cjson.c lines 377-406: the net bytes appended
to the scratch buffer (the reserve/rewind bookkeeping cancels out). -/
def cjson_stringify_string (s : List Nat) : List Nat :=
  34 :: (s.map cjson_escape_byte).join ++ [34]

/-- Join pieces with `,` (the `if (i > 0) PUTC(c, ',')` pattern of
cjson.c lines 419-421 and 430-432). -/
def joinComma : List (List Nat) → List Nat
  | [] => []
  | [x] => x
  | x :: xs => x ++ 44 :: joinComma xs

mutual

/-- cjson_stringify_value, cjson.c lines 408-443.  `none` models the `-1`
return for an unknown variant tag.  NOTE (cjson.c lines 422 and 435): the
recursive calls' return values are ignored, so an unknown tag below the
root emits no bytes but does not fail -- hence the `getD []` in the list
helpers. -/
def cjson_stringify_value : cjson_value → Option (List Nat)
  | .null => some [110, 117, 108, 108]
  | .vfalse => some [102, 97, 108, 115, 101]
  | .vtrue => some [116, 114, 117, 101]
  | .number n => some (fmt17 n)
  | .vstring s => some (cjson_stringify_string s)
  | .varray es => some ([91] ++ joinComma (stringify_elems es) ++ [93])
  | .vobject ms => some ([123] ++ joinComma (stringify_members ms) ++ [125])
  | .unknown _ => none

/-- The element loop of the CJSON_ARRAY case, cjson.c lines 417-424. -/
def stringify_elems : List cjson_value → List (List Nat)
  | [] => []
  | v :: vs => ((cjson_stringify_value v).getD []) :: stringify_elems vs

/-- The member loop of the CJSON_OBJECT case, cjson.c lines 428-436. -/
def stringify_members : List (List Nat × cjson_value) → List (List Nat)
  | [] => []
  | (k, v) :: ms =>
    (cjson_stringify_string k ++ [58] ++ ((cjson_stringify_value v).getD []))
      :: stringify_members ms

end

/-- cjson_stringify, cjson.c lines 445-458: on success report the length
(the scratch top before the terminator) and append the trailing NUL; on
root failure return NULL. -/
def cjson_stringify (v : cjson_value) : Option (List Nat × Nat) :=
  match cjson_stringify_value v with
  | none => none
  | some out => some (out ++ [0], out.length)

/-- cjson_find_key_index, cjson.c lines 460-469: linear scan comparing
length first, then the key bytes; -1 when absent.  (For an Object the
`size` field read by the loop aliases `mem_size` through the union.) -/
def find_key_aux : List (List Nat × cjson_value) → List Nat → Nat → Option Nat
  | [], _, _ => none
  | m :: ms, key, i =>
    if m.1.length == key.length && m.1 == key then some i
    else find_key_aux ms key (i + 1)

def cjson_find_key_index (ms : List (List Nat × cjson_value)) (key : List Nat) : Int :=
  match find_key_aux ms key 0 with
  | some i => i
  | none => -1

/-- cjson_find_key_value, cjson.c lines 471-478: the value of the first
member whose key matches, or NULL. -/
def cjson_find_key_value : List (List Nat × cjson_value) → List Nat → Option cjson_value
  | [], _ => none
  | m :: ms, key =>
    if m.1.length == key.length && m.1 == key then some m.2
    else cjson_find_key_value ms key

mutual

/-- cjson_is_equal, cjson.c lines 480-537: 0 means equal, -1 not equal.
Number payloads are compared with the C `!=` on doubles (`f64_eq`);
strings by length then bytes; arrays pairwise in order (sizes first);
objects by size and per-member key lookup in `rhs`; variants with no
payload (including two values with the same out-of-range tag) compare
equal once the tags match. -/
def cjson_is_equal (lhs rhs : cjson_value) : Int :=
  if lhs.tag ≠ rhs.tag then -1
  else match lhs, rhs with
  | .number a, .number b => if ¬ f64_eq a b then -1 else 0
  | .vstring s, .vstring t => if s.length == t.length && s == t then 0 else -1
  | .varray es, .varray fs =>
    if es.length ≠ fs.length then -1
    else if arr_eq_loop es fs then 0 else -1
  | .vobject ms, .vobject ns =>
    if ms.length ≠ ns.length then -1
    else if obj_eq_loop ms ns then 0 else -1
  | _, _ => 0

/-- The element loop of the CJSON_ARRAY case, cjson.c lines 502-508
(entered only with equal sizes). -/
def arr_eq_loop : List cjson_value → List cjson_value → Bool
  | e :: es, f :: fs => cjson_is_equal e f == 0 && arr_eq_loop es fs
  | _, _ => true

/-- The member loop of the CJSON_OBJECT case, cjson.c lines 515-526:
every lhs member's key is looked up in rhs and the values compared. -/
def obj_eq_loop : List (List Nat × cjson_value) → List (List Nat × cjson_value) → Bool
  | [], _ => true
  | (k, v) :: ms, ns =>
    (match cjson_find_key_value ns k with
     | some w => cjson_is_equal v w == 0
     | none => false) && obj_eq_loop ms ns

end

/-- cjson_free_value, cjson.c lines 539-564: String, Array and Object
release their heap payload (the recursive frees of elements, keys and
member values only touch the heap, which the value model does not carry)
and then reset the tag to Null (line 563); every other variant returns
early through the `default` branch with no side effect at all. -/
def cjson_free_value : cjson_value → cjson_value
  | .vstring _ => .null
  | .varray _ => .null
  | .vobject _ => .null
  | v => v

/-- A UTF-8 continuation byte. -/
def contB (c : Nat) : Bool := 128 ≤ c && c ≤ 191

/-- Decode one code point of RFC 3629 well-formed UTF-8: accept a lead
byte and its continuation bytes (excluding overlong encodings, surrogate
code points and values above U+10FFFF) and return the remaining bytes,
or `none` when the front of the list is not a well-formed encoding. -/
def utf8Step : List Nat → Option (List Nat)
  | [] => none
  | b :: rest =>
    if b ≤ 0x7F then some rest
    else if 0xC2 ≤ b && b ≤ 0xDF then
      (match rest with
       | c :: r => if contB c then some r else none
       | [] => none)
    else if 0xE0 ≤ b && b ≤ 0xEF then
      (match rest with
       | c :: c2 :: r =>
         if ((if b = 0xE0 then 0xA0 ≤ c && c ≤ 0xBF
              else if b = 0xED then 0x80 ≤ c && c ≤ 0x9F
              else contB c) && contB c2) then some r else none
       | _ => none)
    else if 0xF0 ≤ b && b ≤ 0xF4 then
      (match rest with
       | c :: c2 :: c3 :: r =>
         if ((if b = 0xF0 then 0x90 ≤ c && c ≤ 0xBF
              else if b = 0xF4 then 0x80 ≤ c && c ≤ 0x8F
              else contB c) && contB c2 && contB c3) then some r else none
       | _ => none)
    else none

/-- RFC 3629 well-formedness of a byte sequence: a chain of `utf8Step`
decodes reaching the empty list (fuel-based; one unit of fuel per code
point suffices since every step consumes at least one byte). -/
def validUtf8Aux : Nat → List Nat → Bool
  | _, [] => true
  | 0, _ :: _ => false
  | f + 1, s =>
    match utf8Step s with
    | some r => validUtf8Aux f r
    | none => false

def validUtf8 (s : List Nat) : Bool := validUtf8Aux s.length s

/-- Pairwise-distinct member keys (one object level). -/
def nodupk : List (List Nat × cjson_value) → Bool
  | [] => true
  | m :: ms => ms.all (fun m2 => !(m2.1 == m.1)) && nodupk ms

mutual

/-- No node of the tree carries a tag outside the seven variants. -/
def noUnknown : cjson_value → Bool
  | .varray es => noUnknownL es
  | .vobject ms => noUnknownM ms
  | .unknown _ => false
  | _ => true

def noUnknownL : List cjson_value → Bool
  | [] => true
  | v :: vs => noUnknown v && noUnknownL vs

def noUnknownM : List (List Nat × cjson_value) → Bool
  | [] => true
  | m :: ms => noUnknown m.2 && noUnknownM ms

end

mutual

/-- The well-formedness guaranteed for parser output: every node is one
of the seven variants and every Number payload is a well-formed finite
binary64 (neither NaN nor infinity). -/
def wfValue : cjson_value → Bool
  | .number n => n.finite && decide n.wf
  | .varray es => wfValueL es
  | .vobject ms => wfValueM ms
  | .unknown _ => false
  | _ => true

def wfValueL : List cjson_value → Bool
  | [] => true
  | v :: vs => wfValue v && wfValueL vs

def wfValueM : List (List Nat × cjson_value) → Bool
  | [] => true
  | m :: ms => wfValue m.2 && wfValueM ms

end

mutual

/-- The side conditions under which `cjson_is_equal` is an equivalence:
no NaN number payload, pairwise-distinct keys in every object, and every
out-of-range tag is genuinely out of range (at least 7): a model state
`.unknown t` with `t < 7` would alias a payload-carrying variant through
the tag-only default comparison, but corresponds to no C value, since in C
a value whose `type` field is one of the seven enumerated tags IS that
variant. -/
def wfEq : cjson_value → Bool
  | .number n => !n.isNan
  | .varray es => wfEqL es
  | .vobject ms => nodupk ms && wfEqM ms
  | .unknown t => decide (7 ≤ t)
  | _ => true

def wfEqL : List cjson_value → Bool
  | [] => true
  | v :: vs => wfEq v && wfEqL vs

def wfEqM : List (List Nat × cjson_value) → Bool
  | [] => true
  | m :: ms => wfEq m.2 && wfEqM ms

end

/-- A JSON whitespace byte. -/
def wsByte (b : Nat) : Bool := b == 32 || b == 9 || b == 10 || b == 13

mutual

/-- No String payload or Object key in the tree contains a raw space
byte 0x20 (tab, LF and CR payload bytes are escaped by the serializer,
so only a literal space can put a whitespace byte into the output).
Used to state that the serializer emits no insignificant whitespace:
under this hypothesis its output has no whitespace byte at all. -/
def noWsStrings : cjson_value → Bool
  | .vstring s => s.all (fun b => !(b == 32))
  | .varray es => noWsL es
  | .vobject ms => noWsM ms
  | _ => true

def noWsL : List cjson_value → Bool
  | [] => true
  | v :: vs => noWsStrings v && noWsL vs

def noWsM : List (List Nat × cjson_value) → Bool
  | [] => true
  | m :: ms => m.1.all (fun b => !(b == 32)) && noWsStrings m.2 && noWsM ms

end

-- ===================== Theorems =====================

theorem bpowAux_eq : ∀ f b e, e ≤ f → bpowAux f b e = b ^ e := by
  intro f
  induction f with
  | zero =>
    intro b e he
    have : e = 0 := Nat.le_zero.mp he
    simp [bpowAux, this]
  | succ f ih =>
    intro b e he
    by_cases h0 : e = 0
    · simp [bpowAux, h0]
    · have h2 : e / 2 ≤ f := by omega
      have ihh := ih (b * b) (e / 2) h2
      have hbb : (b * b) ^ (e / 2) = b ^ (2 * (e / 2)) := by
        rw [two_mul, pow_add, mul_pow]
      rcases Nat.even_or_odd e with he2 | he2
      · have hm : e % 2 = 0 := Nat.even_iff.mp he2
        have he' : 2 * (e / 2) = e := by omega
        simp only [bpowAux, h0, if_neg h0, hm]
        simp [ihh, hbb, he']
      · have hm : e % 2 = 1 := Nat.odd_iff.mp he2
        have he' : 2 * (e / 2) + 1 = e := by omega
        simp only [bpowAux, h0, if_neg h0, hm]
        simp only [if_pos rfl, ihh, hbb]
        rw [← pow_succ', he']
        simp

theorem bpow_eq (b e : Nat) : bpow b e = b ^ e := bpowAux_eq e b e le_rfl

theorem cjson_parse_hex4_length : ∀ {s : List Nat} {u : Nat} {r : List Nat},
    cjson_parse_hex4 s = some (u, r) → r.length + 4 = s.length := by
  intro s u r h
  match s with
  | [] => simp [cjson_parse_hex4] at h
  | [a] => simp [cjson_parse_hex4] at h
  | [a, b] => simp [cjson_parse_hex4] at h
  | [a, b, c] => simp [cjson_parse_hex4] at h
  | a :: b :: c :: d :: rest =>
    simp only [cjson_parse_hex4] at h
    split at h
    · have h2 : rest = r := congrArg Prod.snd (Option.some.inj h)
      subst h2; simp
    · exact Option.noConfusion h


/-- Claim C5 counterexample: a single `cjson_free_value` on a True value
does not reset it to Null -- the C `default:` branch (cjson.c line 561)
returns before the `value->type = CJSON_NULL` assignment, so scalar
variants keep their tag.  This refutes "a single call cjson_free_value(V)
leaves V in the Null variant" for the True/False/Number variants. -/
theorem cjson_free_value_true_counterexample :
    cjson_free_value .vtrue = .vtrue ∧ cjson_value.vtrue ≠ cjson_value.null :=
  ⟨rfl, fun h => cjson_value.noConfusion h⟩

/-- Claim C5, amended: `cjson_free_value` resets String, Array and Object
values to Null; on Null it is a no-op; on the other variants (Null, True,
False, Number and out-of-range tags) it returns the value unchanged; and
it is idempotent: releasing twice equals releasing once, so the double
release is safe. -/
theorem cjson_free_value_amended :
    (∀ s, cjson_free_value (.vstring s) = .null) ∧
    (∀ es, cjson_free_value (.varray es) = .null) ∧
    (∀ ms, cjson_free_value (.vobject ms) = .null) ∧
    cjson_free_value .null = .null ∧
    (∀ v, cjson_free_value (cjson_free_value v) = cjson_free_value v) :=
  ⟨fun _ => rfl, fun _ => rfl, fun _ => rfl, rfl, fun v => by cases v <;> rfl⟩

/-- Claim C7 counterexample: `cjson_is_equal` on Number(0.0) and
Number(-0.0) reports equal although the two binary64 payloads are not
bitwise identical (the C comparison is the IEEE `!=` on doubles,
cjson.c line 487, under which +0 equals -0). -/
theorem cjson_is_equal_number_zeros_counterexample :
    cjson_is_equal (.number F64.pzero) (.number F64.mzero) = 0 ∧
      F64.pzero ≠ F64.mzero :=
  ⟨rfl, by decide⟩

/-- Claim C7, amended: two Number values compare equal exactly under the
IEEE-754 equality of their binary64 payloads: neither payload is NaN, and
the payloads are either bitwise identical or both zeros (of either sign).
In particular Number(0.0) equals Number(-0.0), and a NaN payload is
unequal to the bitwise-identical NaN payload. -/
theorem cjson_is_equal_number_iff :
    (∀ a b : F64, cjson_is_equal (.number a) (.number b) = 0 ↔
      (a.isNan = false ∧ b.isNan = false ∧
        (a = b ∨ (a.isZero = true ∧ b.isZero = true)))) ∧
    cjson_is_equal (.number F64.pzero) (.number F64.mzero) = 0 ∧
    (∀ a : F64, a.isNan = true → cjson_is_equal (.number a) (.number a) = -1) := by
  have key : ∀ a b : F64, f64_eq a b = true ↔
      (a.isNan = false ∧ b.isNan = false ∧
        (a = b ∨ (a.isZero = true ∧ b.isZero = true))) := by
    intro a b
    unfold f64_eq
    by_cases h1 : a.isNan <;> by_cases h2 : b.isNan <;> simp [h1, h2] <;>
      by_cases h3 : a.isZero <;> by_cases h4 : b.isZero <;> simp [h3, h4]
  have unf : ∀ a b : F64, cjson_is_equal (.number a) (.number b) =
      if ¬ f64_eq a b then -1 else 0 := by
    intro a b
    simp [cjson_is_equal, cjson_value.tag]
  refine ⟨fun a b => ?_, rfl, fun a ha => ?_⟩
  · rw [unf]
    constructor
    · intro h0
      have hf : f64_eq a b = true := by
        by_contra hc
        simp only [Bool.not_eq_true] at hc
        simp [hc] at h0
      exact (key a b).mp hf
    · intro hR
      have hf := (key a b).mpr hR
      simp [hf]
  · have hf : f64_eq a a = false := by simp [f64_eq, ha]
    rw [unf, hf]
    simp

/-- Claim C7 witness: the NaN clause of the amended theorem applied to
the quiet NaN with fraction 1. -/
theorem cjson_is_equal_number_iff_witness :
    cjson_is_equal (.number ⟨false, 2047, 1⟩) (.number ⟨false, 2047, 1⟩) = -1 :=
  cjson_is_equal_number_iff.2.2 ⟨false, 2047, 1⟩ rfl

/-- Claim C8: parsing `1e309` and `-1e309` fails with NumberTooBig (the
modelled correctly rounded conversion overflows to ±infinity), and the
out value stays Null; parsing `1e-10000` succeeds and yields Number +0.0
(underflow to zero is accepted). -/
theorem cjson_parse_number_range :
    cjson_parse [49, 101, 51, 48, 57] = (.number_too_big, .null) ∧
    cjson_parse [45, 49, 101, 51, 48, 57] = (.number_too_big, .null) ∧
    cjson_parse [49, 101, 45, 49, 48, 48, 48, 48] = (.ok, .number F64.pzero) :=
  ⟨rfl, rfl, rfl⟩

/-- Claim C10 counterexample: a tree whose (only) element carries an
out-of-range tag still serializes successfully, because the recursive
calls of cjson_stringify_value discard the child's -1 (cjson.c line 422):
the child emits nothing and the result is `[]` -- not an absent result.
This refutes the "if and only if" over all nodes of the tree. -/
theorem cjson_stringify_nested_unknown_counterexample :
    cjson_stringify (.varray [.unknown 9]) = some ([91, 93, 0], 2) := rfl

/-- Claim C10, amended: `cjson_stringify` returns an absent result if and
only if the ROOT value's tag is outside the seven variants (a nested
unknown tag is silently skipped, emitting nothing); on every tree all of
whose nodes are among the seven variants it succeeds, and the returned
buffer is the payload followed by a trailing zero byte while the reported
length excludes that terminator. -/
theorem cjson_stringify_amended : ∀ v : cjson_value,
    (cjson_stringify v = none ↔ ∃ t, v = cjson_value.unknown t) ∧
    (noUnknown v = true → ∃ body, cjson_stringify v = some (body ++ [0], body.length)) := by
  intro v
  constructor
  · cases v <;> simp [cjson_stringify, cjson_stringify_value]
  · intro h
    cases v <;> simp only [cjson_stringify, cjson_stringify_value] <;>
      first
        | exact ⟨_, rfl⟩
        | simp [noUnknown] at h

/-- Claim C10 witness: the amended theorem applied at a one-element array
of Null; the serializer output is `[null]` plus the terminator, length 6. -/
theorem cjson_stringify_amended_witness :
    noUnknown (.varray [.null]) = true ∧
    (∃ body, cjson_stringify (.varray [.null]) = some (body ++ [0], body.length)) :=
  ⟨rfl, (cjson_stringify_amended (.varray [.null])).2 rfl⟩

theorem cjson_parse_hex4_spec (a b c d : Nat) (r : List Nat) :
    cjson_parse_hex4 (a :: b :: c :: d :: r) =
      match hexVal a, hexVal b, hexVal c, hexVal d with
      | some x, some y, some z, some w => some (((x * 16 + y) * 16 + z) * 16 + w, r)
      | _, _, _, _ => none := rfl

theorem and_mask_mod (u i : Nat) : u &&& (2 ^ i - 1) = u % 2 ^ i :=
  Nat.and_pow_two_sub_one_eq_mod u i

theorem and255 (u : Nat) : u &&& 255 = u % 256 := and_mask_mod u 8

theorem and63 (u : Nat) : u &&& 63 = u % 64 := and_mask_mod u 6

theorem lor_base (i a x : Nat) (hx : x < 2 ^ i) : 2 ^ i * a ||| x = 2 ^ i * a + x :=
  (Nat.mul_add_lt_is_or hx a).symm

theorem lor128 (x : Nat) (hx : x < 64) : 128 ||| x = 128 + x := by
  have h := lor_base 7 1 x (by omega); norm_num at h; exact h

theorem lor192 (x : Nat) (hx : x < 64) : 192 ||| x = 192 + x := by
  have h := lor_base 6 3 x (by omega); norm_num at h; exact h

theorem lor224 (x : Nat) (hx : x < 32) : 224 ||| x = 224 + x := by
  have h := lor_base 5 7 x (by omega); norm_num at h; exact h

theorem lor240 (x : Nat) (hx : x < 16) : 240 ||| x = 240 + x := by
  have h := lor_base 4 15 x (by omega); norm_num at h; exact h

/-- The UTF-8 validator accepts the encoder's output for every scalar
value outside the surrogate range, consuming exactly the encoded bytes. -/
theorem utf8Step_encode (u : Nat) (rest : List Nat) (h1 : u ≤ 0x10FFFF)
    (h2 : u < 0xD800 ∨ 0xDFFF < u) :
    utf8Step (cjson_encode_utf8 u ++ rest) = some rest := by
  unfold cjson_encode_utf8
  by_cases c1 : u ≤ 0x7F
  · have e1 : u &&& 255 = u := by rw [and255]; omega
    simp only [if_pos c1, e1, List.cons_append, List.nil_append]
    simp only [utf8Step]
    rw [if_pos (by omega : u ≤ 0x7F)]
  · by_cases c2 : u ≤ 0x7FF
    · have e1 : 0xC0 ||| (u >>> 6 &&& 0xFF) = 192 + u / 64 := by
        rw [Nat.shiftRight_eq_div_pow, and255, Nat.mod_eq_of_lt (by omega),
          lor192 _ (by omega)]
      have e2 : 0x80 ||| (u &&& 0x3F) = 128 + u % 64 := by
        rw [and63, lor128 _ (by omega)]
      simp only [if_neg c1, if_pos c2, e1, e2, List.cons_append, List.nil_append]
      simp only [utf8Step]
      rw [if_neg (by omega : ¬ (192 + u / 64 ≤ 0x7F))]
      rw [if_pos (by simp; omega : ((0xC2 ≤ 192 + u / 64 && 192 + u / 64 ≤ 0xDF) = true))]
      rw [if_pos (by simp [contB]; omega : (contB (128 + u % 64) = true))]
    · by_cases c3 : u ≤ 0xFFFF
      · have e1 : 0xE0 ||| (u >>> 12 &&& 0xFF) = 224 + u / 4096 := by
          rw [Nat.shiftRight_eq_div_pow, and255, Nat.mod_eq_of_lt (by omega),
            lor224 _ (by omega)]
        have e2 : 0x80 ||| (u >>> 6 &&& 0x3F) = 128 + u / 64 % 64 := by
          rw [Nat.shiftRight_eq_div_pow, and63, lor128 _ (by omega)]
        have e3 : 0x80 ||| (u &&& 0x3F) = 128 + u % 64 := by
          rw [and63, lor128 _ (by omega)]
        simp only [if_neg c1, if_neg c2, if_pos c3, e1, e2, e3,
          List.cons_append, List.nil_append]
        simp only [utf8Step]
        rw [if_neg (by omega : ¬ (224 + u / 4096 ≤ 0x7F))]
        rw [if_neg (by simp; omega : ¬ ((0xC2 ≤ 224 + u / 4096 && 224 + u / 4096 ≤ 0xDF) = true))]
        rw [if_pos (by simp; omega : ((0xE0 ≤ 224 + u / 4096 && 224 + u / 4096 ≤ 0xEF) = true))]
        rw [if_pos ?_]
        simp only [contB, Bool.and_eq_true, decide_eq_true_eq]
        refine ⟨?_, by omega⟩
        by_cases d0 : u / 4096 = 0
        · rw [if_pos (by omega : 224 + u / 4096 = 0xE0)]
          simp; omega
        · rw [if_neg (by omega : ¬ (224 + u / 4096 = 0xE0))]
          by_cases d13 : u / 4096 = 13
          · rw [if_pos (by omega : 224 + u / 4096 = 0xED)]
            simp; omega
          · rw [if_neg (by omega : ¬ (224 + u / 4096 = 0xED))]
            simp [contB]; omega
      · have e1 : 0xF0 ||| (u >>> 18 &&& 0xFF) = 240 + u / 262144 := by
          rw [Nat.shiftRight_eq_div_pow, and255, Nat.mod_eq_of_lt (by omega),
            lor240 _ (by omega)]
        have e2 : 0x80 ||| (u >>> 12 &&& 0x3F) = 128 + u / 4096 % 64 := by
          rw [Nat.shiftRight_eq_div_pow, and63, lor128 _ (by omega)]
        have e3 : 0x80 ||| (u >>> 6 &&& 0x3F) = 128 + u / 64 % 64 := by
          rw [Nat.shiftRight_eq_div_pow, and63, lor128 _ (by omega)]
        have e4 : 0x80 ||| (u &&& 0x3F) = 128 + u % 64 := by
          rw [and63, lor128 _ (by omega)]
        simp only [if_neg c1, if_neg c2, if_neg c3, e1, e2, e3, e4,
          List.cons_append, List.nil_append]
        simp only [utf8Step]
        rw [if_neg (by omega : ¬ (240 + u / 262144 ≤ 0x7F))]
        rw [if_neg (by simp; omega : ¬ ((0xC2 ≤ 240 + u / 262144 && 240 + u / 262144 ≤ 0xDF) = true))]
        rw [if_neg (by simp; omega : ¬ ((0xE0 ≤ 240 + u / 262144 && 240 + u / 262144 ≤ 0xEF) = true))]
        rw [if_pos (by simp; omega : ((0xF0 ≤ 240 + u / 262144 && 240 + u / 262144 ≤ 0xF4) = true))]
        rw [if_pos ?_]
        simp only [contB, Bool.and_eq_true, decide_eq_true_eq]
        refine ⟨⟨?_, by omega⟩, by omega⟩
        by_cases d0 : u / 262144 = 0
        · rw [if_pos (by omega : 240 + u / 262144 = 0xF0)]
          simp; omega
        · rw [if_neg (by omega : ¬ (240 + u / 262144 = 0xF0))]
          by_cases d4 : u / 262144 = 4
          · rw [if_pos (by omega : 240 + u / 262144 = 0xF4)]
            simp; omega
          · rw [if_neg (by omega : ¬ (240 + u / 262144 = 0xF4))]
            simp [contB]; omega

theorem utf8Step_length : ∀ {s r : List Nat}, utf8Step s = some r → r.length < s.length := by
  intro s r h
  match s with
  | [] => simp [utf8Step] at h
  | b :: rest =>
    simp only [utf8Step] at h
    repeat' split at h
    all_goals first
      | exact Option.noConfusion h
      | (injection h with h; subst h; simp only [List.length_cons]; omega)

theorem validUtf8Aux_fuel : ∀ f f' (s : List Nat), s.length ≤ f → s.length ≤ f' →
    validUtf8Aux f s = validUtf8Aux f' s := by
  intro f
  induction f with
  | zero =>
    intro f' s hf hf'
    have : s = [] := List.length_eq_zero.mp (Nat.le_zero.mp hf)
    subst this
    cases f' <;> rfl
  | succ f ih =>
    intro f' s hf hf'
    match s with
    | [] => cases f' <;> rfl
    | b :: t =>
      cases f' with
      | zero => simp at hf'
      | succ f' =>
        rw [validUtf8Aux, validUtf8Aux] <;> try (intro hh; exact List.noConfusion hh)
        cases hstep : utf8Step (b :: t) with
        | none => rfl
        | some r =>
          have hlen := utf8Step_length hstep
          simp only [List.length_cons] at hlen hf hf'
          exact ih f' r (by omega) (by omega)

theorem validUtf8_step {s r : List Nat} (h : utf8Step s = some r) :
    validUtf8 s = validUtf8 r := by
  match s with
  | [] => simp [utf8Step] at h
  | b :: t =>
    have hlen := utf8Step_length h
    show validUtf8Aux (b :: t).length (b :: t) = validUtf8 r
    rw [show (b :: t).length = t.length + 1 from rfl]
    rw [validUtf8Aux] <;> try (intro hh; exact List.noConfusion hh)
    rw [h]
    exact validUtf8Aux_fuel t.length r.length r (by simp at hlen; omega) le_rfl

/-- Appending a well-formed encoding in front preserves validity. -/
theorem validUtf8_encode_cons (u : Nat) (rest : List Nat) (h1 : u ≤ 0x10FFFF)
    (h2 : u < 0xD800 ∨ 0xDFFF < u) :
    validUtf8 (cjson_encode_utf8 u ++ rest) = validUtf8 rest :=
  validUtf8_step (utf8Step_encode u rest h1 h2)

/-- One `emit` iteration of the string-scanning loop. -/
theorem string_loop_emit (f : Nat) (acc s bs rest : List Nat)
    (h : cjson_string_step s = .emit bs rest) :
    cjson_parse_string_loop (f + 1) acc s = cjson_parse_string_loop f (acc ++ bs) rest := by
  rw [cjson_parse_string_loop, h]

/-- The closing-quote iteration of the string-scanning loop. -/
theorem string_loop_done (f : Nat) (acc s rest : List Nat)
    (h : cjson_string_step s = .done rest) :
    cjson_parse_string_loop (f + 1) acc s = .ok (acc, rest) := by
  rw [cjson_parse_string_loop, h]

/-- A failing iteration of the string-scanning loop. -/
theorem string_loop_fail (f : Nat) (acc s : List Nat) (e : cjson_state)
    (h : cjson_string_step s = .fail e) :
    cjson_parse_string_loop (f + 1) acc s = .error e := by
  rw [cjson_parse_string_loop, h]

/-- Claim C3 counterexample: the input `"\xFF"` -- a quoted string whose
single byte is 0xFF -- parses successfully (any raw byte at or above 0x20
is copied verbatim, cjson.c lines 211-216), yet the resulting String
payload is not valid UTF-8.  This refutes "any input whose decoded string
would contain invalid UTF-8 is rejected with a parse error". -/
theorem cjson_parse_invalid_utf8_counterexample :
    cjson_parse [34, 255, 34] = (.ok, .vstring [255]) ∧ validUtf8 [255] = false :=
  ⟨rfl, rfl⟩

/-- Claim C3, amended: the decoder guarantees valid UTF-8 only for the
bytes it produces through `cjson_encode_utf8`, which emits a well-formed
encoding for every scalar value outside the surrogate range; it does NOT
reject inputs whose strings contain invalid UTF-8: a raw byte at or above
0x20 (including bytes 0x80-0xFF) is copied into the string verbatim and
unchecked, and a `\uXXXX` escape in [0xDC00, 0xDFFF] with no preceding
high surrogate is accepted and encoded as a three-byte sequence that is
not valid UTF-8. -/
theorem cjson_parse_utf8_amended :
    (∀ u : Nat, u ≤ 0x10FFFF → (u < 0xD800 ∨ 0xDFFF < u) →
      validUtf8 (cjson_encode_utf8 u) = true) ∧
    (∀ b : Nat, 32 ≤ b → b ≠ 34 → b ≠ 92 →
      cjson_parse [34, b, 34] = (.ok, .vstring [b])) ∧
    cjson_parse [34, 92, 117, 68, 67, 48, 48, 34] = (.ok, .vstring [237, 176, 128]) ∧
    validUtf8 [237, 176, 128] = false := by
  refine ⟨fun u h1 h2 => ?_, fun b h1 h2 h3 => ?_, rfl, rfl⟩
  · have h := validUtf8_encode_cons u [] h1 h2
    simpa [validUtf8, validUtf8Aux] using h
  · have hstep : cjson_string_step [b, 34] = .emit [b] [34] := by
      simp only [cjson_string_step]
      rw [if_neg h2, if_neg h3, if_neg (by omega : ¬ b < 32)]
    have hraw : cjson_parse_string_raw [34, b, 34] = .ok ([b], []) :=
      ((string_loop_emit 2 [] [b, 34] [b] [34] hstep).trans
        (string_loop_done 1 [b] [34] [] rfl))
    have hstr : cjson_parse_string [34, b, 34] = .ok (.vstring [b], []) := by
      unfold cjson_parse_string
      rw [hraw]
    have hv : cjson_parse_value 12 [34, b, 34] = some (cjson_parse_string [34, b, 34]) := rfl
    unfold cjson_parse
    rw [show cjson_parse_whitespace [34, b, 34] = [34, b, 34] from rfl]
    dsimp only []
    rw [show parseFuel [34, b, 34] = 12 from rfl]
    rw [hv, hstr]
    rfl

/-- Claim C3 witness: the amended theorem applied to the scalar U+10348
(whose encoding F0 90 8D 88 is valid UTF-8) and to the verbatim byte '/'
(0x2F). -/
theorem cjson_parse_utf8_amended_witness :
    validUtf8 (cjson_encode_utf8 0x10348) = true ∧
    cjson_parse [34, 47, 34] = (.ok, .vstring [47]) :=
  ⟨cjson_parse_utf8_amended.1 0x10348 (by decide) (by decide),
   cjson_parse_utf8_amended.2.1 47 (by decide) (by decide) (by decide)⟩

/-- Claim C4 counterexample: the escape `\uDC00` -- a low surrogate with
no preceding high surrogate -- does NOT fail: the code only enters the
surrogate-pair logic for U in [0xD800, 0xDBFF] (cjson.c line 188), so a
lone low surrogate is accepted and encoded directly.  This refutes the
first clause of the claim. -/
theorem cjson_parse_lone_low_surrogate_counterexample :
    cjson_parse [34, 92, 117, 68, 67, 48, 48, 34] = (.ok, .vstring [237, 176, 128]) := rfl

/-- Claim C4, amended: when the string decoder reads a `\uXXXX` escape
whose quad decodes to a HIGH surrogate U in [0xD800, 0xDBFF], and the
following input does not continue with `\u` plus four hex digits whose
value lies in [0xDC00, 0xDFFF], it fails with InvalidUnicodeSurrogate --
unless the following `\u` quad is malformed, which is InvalidUnicodeHex
instead; a lone LOW surrogate `\uXXXX` with XXXX in [0xDC00, 0xDFFF] is
accepted, not rejected.  In particular `"\uD800"` and `"\uD800"`
both fail with InvalidUnicodeSurrogate and leave the out value Null. -/
theorem cjson_parse_surrogate_amended :
    (∀ (a b c d x y z w : Nat) (p3 : List Nat),
      hexVal a = some x → hexVal b = some y → hexVal c = some z → hexVal d = some w →
      0xD800 ≤ ((x * 16 + y) * 16 + z) * 16 + w →
      ((x * 16 + y) * 16 + z) * 16 + w ≤ 0xDBFF →
      (hd0 p3 ≠ 92 →
        cjson_string_step (92 :: 117 :: a :: b :: c :: d :: p3) =
          .fail .invalid_unicode_surrogate) ∧
      (∀ q, p3 = 92 :: q → hd0 q ≠ 117 →
        cjson_string_step (92 :: 117 :: a :: b :: c :: d :: p3) =
          .fail .invalid_unicode_surrogate) ∧
      (∀ a2 b2 c2 d2 x2 y2 z2 w2 (p5 : List Nat),
        p3 = 92 :: 117 :: a2 :: b2 :: c2 :: d2 :: p5 →
        hexVal a2 = some x2 → hexVal b2 = some y2 →
        hexVal c2 = some z2 → hexVal d2 = some w2 →
        (((x2 * 16 + y2) * 16 + z2) * 16 + w2 < 0xDC00 ∨
          0xDFFF < ((x2 * 16 + y2) * 16 + z2) * 16 + w2) →
        cjson_string_step (92 :: 117 :: a :: b :: c :: d :: p3) =
          .fail .invalid_unicode_surrogate)) ∧
    cjson_parse [34, 92, 117, 68, 56, 48, 48, 34] = (.invalid_unicode_surrogate, .null) ∧
    cjson_parse [34, 92, 117, 68, 56, 48, 48, 92, 117, 69, 48, 48, 48, 34] =
      (.invalid_unicode_surrogate, .null) := by
  refine ⟨fun a b c d x y z w p3 ha hb hc hd hlo hhi => ⟨?_, ?_, ?_⟩, rfl, rfl⟩
  · intro hne
    simp only [cjson_string_step, ha, hb, hc, hd]
    repeat' split
    all_goals simp_all [hd0]
  · intro q hq hne
    subst hq
    simp only [cjson_string_step, ha, hb, hc, hd]
    repeat' split
    all_goals simp_all [hd0]
  · intro a2 b2 c2 d2 x2 y2 z2 w2 p5 hp3 ha2 hb2 hc2 hd2 hrange
    subst hp3
    simp only [cjson_string_step, ha, hb, hc, hd, ha2, hb2, hc2, hd2]
    repeat' split
    all_goals simp_all [hd0]

/-- Claim C4 witness: the decoder-level clause applied to the escape
`\uD800` followed by `"` (the quad D800, p3 = [34]): the step fails with
InvalidUnicodeSurrogate. -/
theorem cjson_parse_surrogate_amended_witness :
    cjson_string_step (92 :: 117 :: 68 :: 56 :: 48 :: 48 :: [34]) =
      .fail .invalid_unicode_surrogate :=
  (cjson_parse_surrogate_amended.1 68 56 48 48 13 8 0 0 [34]
    rfl rfl rfl rfl (by decide) (by decide)).1 (by decide)

theorem digitsAux_digits : ∀ f n acc, (∀ b ∈ acc, 48 ≤ b ∧ b ≤ 57) →
    ∀ b ∈ digitsAux f n acc, 48 ≤ b ∧ b ≤ 57 := by
  intro f
  induction f with
  | zero => intro n acc hacc; simpa [digitsAux] using hacc
  | succ f ih =>
    intro n acc hacc b hb
    rw [digitsAux] at hb
    by_cases hn : n < 10
    · rw [if_pos hn] at hb
      rcases List.mem_cons.mp hb with rfl | h
      · omega
      · exact hacc _ h
    · rw [if_neg hn] at hb
      refine ih _ _ ?_ b hb
      intro b2 hb2
      rcases List.mem_cons.mp hb2 with rfl | h
      · have := Nat.mod_lt n (show 0 < 10 by omega)
        omega
      · exact hacc _ h

theorem natDigits_digits (n : Nat) : ∀ b ∈ natDigits n, 48 ≤ b ∧ b ≤ 57 :=
  digitsAux_digits n n [] (by simp)

theorem stripZeros_subset (ds : List Nat) : stripZeros ds ⊆ ds := by
  intro b hb
  unfold stripZeros at hb
  rw [List.mem_reverse] at hb
  have := (List.dropWhile_sublist (l := ds.reverse) (p := (· == 48))).subset hb
  rwa [List.mem_reverse] at this

theorem expPart_mem (X : Int) : ∀ b ∈ expPart X,
    b = 101 ∨ b = 45 ∨ b = 43 ∨ (48 ≤ b ∧ b ≤ 57) := by
  intro b hb
  unfold expPart pad2 at hb
  have hdig := natDigits_digits X.natAbs
  rcases List.mem_append.mp hb with h | h
  · rcases List.mem_append.mp h with h | h
    · simp at h; tauto
    · split at h <;> simp at h <;> tauto
  · split at h
    · rcases List.mem_cons.mp h with rfl | h
      · omega
      · exact Or.inr (Or.inr (Or.inr (hdig _ h)))
    · exact Or.inr (Or.inr (Or.inr (hdig _ h)))

theorem fmtShape_noWs (ds : List Nat) (X1 : Int)
    (hds : ∀ c ∈ ds, 48 ≤ c ∧ c ≤ 57) :
    ∀ b ∈ (if X1 < -4 || 17 ≤ X1 then
        ((stripZeros ds).take 1 ++
          (if (stripZeros ds).length ≤ 1 then [] else 46 :: (stripZeros ds).drop 1)) ++ expPart X1
      else if X1 < 0 then
        [48, 46] ++ List.replicate (X1.natAbs - 1) 48 ++ stripZeros ds
      else
        ds.take (X1.toNat + 1) ++
          (if stripZeros (ds.drop (X1.toNat + 1)) = [] then []
           else 46 :: stripZeros (ds.drop (X1.toNat + 1)))), wsByte b = false := by
  intro b hb
  have hws : ∀ c, c = 101 ∨ c = 45 ∨ c = 43 ∨ c = 46 ∨ (48 ≤ c ∧ c ≤ 57) →
      wsByte c = false := by
    intro c hc
    simp only [wsByte, Bool.or_eq_false_iff]
    refine ⟨⟨⟨?_, ?_⟩, ?_⟩, ?_⟩ <;> simp <;> omega
  have hsz : ∀ c ∈ stripZeros ds, 48 ≤ c ∧ c ≤ 57 :=
    fun c hc => hds c (stripZeros_subset _ hc)
  split at hb
  · rcases List.mem_append.mp hb with h | h
    · rcases List.mem_append.mp h with h | h
      · have := hsz _ (List.mem_of_mem_take h)
        exact hws b (by omega)
      · split at h
        · simp at h
        · rcases List.mem_cons.mp h with rfl | h
          · exact hws 46 (by omega)
          · have := hsz _ (List.mem_of_mem_drop h)
            exact hws b (by omega)
    · rcases expPart_mem _ _ h with h | h | h | h <;> exact hws b (by omega)
  · split at hb
    · rcases List.mem_append.mp hb with h | h
      · rcases List.mem_append.mp h with h | h
        · simp at h
          rcases h with rfl | rfl <;> rfl
        · have := List.eq_of_mem_replicate h
          exact hws b (by omega)
      · have := hsz _ h
        exact hws b (by omega)
    · rcases List.mem_append.mp hb with h | h
      · have := hds _ (List.mem_of_mem_take h)
        exact hws b (by omega)
      · split at h
        · simp at h
        · rcases List.mem_cons.mp h with rfl | h
          · exact hws 46 (by omega)
          · have := hds _ (List.mem_of_mem_drop (stripZeros_subset _ h))
            exact hws b (by omega)

theorem fmtMag_noWs (num den : Nat) : ∀ b ∈ fmtMag num den, wsByte b = false := by
  intro b hb
  unfold fmtMag at hb
  dsimp only [] at hb
  exact fmtShape_noWs _ _ (natDigits_digits _) b hb

theorem fmt17_noWs (dd : F64) : ∀ b ∈ fmt17 dd, wsByte b = false := by
  intro b hb
  have hws : ∀ c : Nat, c ≠ 32 → c ≠ 9 → c ≠ 10 → c ≠ 13 → wsByte c = false := by
    intro c h1 h2 h3 h4
    simp only [wsByte, Bool.or_eq_false_iff]
    refine ⟨⟨⟨?_, ?_⟩, ?_⟩, ?_⟩ <;> simp [h1, h2, h3, h4]
  unfold fmt17 at hb
  dsimp only [] at hb
  repeat' split at hb
  all_goals
    rcases List.mem_append.mp hb with h | h <;>
      first
        | exact fmtMag_noWs _ _ _ h
        | (simp at h
           all_goals exact hws b (by omega) (by omega) (by omega) (by omega))

theorem cjson_escape_byte_noWs (ch : Nat) (hch : ch ≠ 32) :
    ∀ b ∈ cjson_escape_byte ch, wsByte b = false := by
  intro b hb
  have hws : ∀ c : Nat, c ≠ 32 → c ≠ 9 → c ≠ 10 → c ≠ 13 → wsByte c = false := by
    intro c h1 h2 h3 h4
    simp only [wsByte, Bool.or_eq_false_iff]
    refine ⟨⟨⟨?_, ?_⟩, ?_⟩, ?_⟩ <;> simp [h1, h2, h3, h4]
  have hhex : ∀ n, 48 ≤ hexDigitU n := by
    intro n; unfold hexDigitU; split <;> omega
  have h1 := hhex (ch >>> 4)
  have h2 := hhex (ch &&& 15)
  unfold cjson_escape_byte at hb
  repeat' split at hb
  all_goals simp at hb
  all_goals exact hws b (by omega) (by omega) (by omega) (by omega)

theorem joinComma_mem : ∀ (xs : List (List Nat)) (b : Nat), b ∈ joinComma xs →
    b = 44 ∨ ∃ x ∈ xs, b ∈ x := by
  intro xs
  induction xs with
  | nil => intro b hb; simp [joinComma] at hb
  | cons x xs ih =>
    intro b hb
    cases xs with
    | nil =>
      rw [show joinComma [x] = x from rfl] at hb
      exact Or.inr ⟨x, by simp, hb⟩
    | cons y ys =>
      rw [show joinComma (x :: y :: ys) = x ++ 44 :: joinComma (y :: ys) from rfl] at hb
      rcases List.mem_append.mp hb with h | h
      · exact Or.inr ⟨x, by simp, h⟩
      · rcases List.mem_cons.mp h with rfl | h
        · exact Or.inl rfl
        · rcases ih b h with h44 | ⟨z, hz, hbz⟩
          · exact Or.inl h44
          · exact Or.inr ⟨z, List.mem_cons_of_mem _ hz, hbz⟩

theorem stringify_elems_mem : ∀ (es : List cjson_value) (x : List Nat),
    x ∈ stringify_elems es → ∃ v ∈ es, x = (cjson_stringify_value v).getD [] := by
  intro es
  induction es with
  | nil => intro x hx; simp [stringify_elems] at hx
  | cons v vs ih =>
    intro x hx
    rw [show stringify_elems (v :: vs)
        = ((cjson_stringify_value v).getD []) :: stringify_elems vs from rfl] at hx
    rcases List.mem_cons.mp hx with rfl | hx
    · exact ⟨v, by simp, rfl⟩
    · rcases ih x hx with ⟨w, hw, hxw⟩
      exact ⟨w, List.mem_cons_of_mem _ hw, hxw⟩

theorem stringify_members_mem : ∀ (ms : List (List Nat × cjson_value)) (x : List Nat),
    x ∈ stringify_members ms →
    ∃ m ∈ ms, x = cjson_stringify_string m.1 ++ [58] ++ ((cjson_stringify_value m.2).getD []) := by
  intro ms
  induction ms with
  | nil => intro x hx; simp [stringify_members] at hx
  | cons m ms ih =>
    intro x hx
    rcases m with ⟨k, v⟩
    rw [show stringify_members ((k, v) :: ms)
        = (cjson_stringify_string k ++ [58] ++ ((cjson_stringify_value v).getD []))
            :: stringify_members ms from rfl] at hx
    rcases List.mem_cons.mp hx with rfl | hx
    · exact ⟨(k, v), by simp, rfl⟩
    · rcases ih x hx with ⟨w, hw, hxw⟩
      exact ⟨w, List.mem_cons_of_mem _ hw, hxw⟩

theorem cjson_stringify_string_noWs (s : List Nat) (hs : ∀ c ∈ s, c ≠ 32) :
    ∀ b ∈ cjson_stringify_string s, wsByte b = false := by
  intro b hb
  unfold cjson_stringify_string at hb
  rcases List.mem_cons.mp hb with rfl | h
  · rfl
  · rcases List.mem_append.mp h with h | h
    · rcases List.mem_join.mp h with ⟨l, hl, hbl⟩
      rcases List.mem_map.mp hl with ⟨c, hc, rfl⟩
      exact cjson_escape_byte_noWs c (hs c hc) b hbl
    · simp at h
      subst h; rfl

theorem noWsL_mem : ∀ (es : List cjson_value), noWsL es = true →
    ∀ v ∈ es, noWsStrings v = true := by
  intro es
  induction es with
  | nil => intro _ v hv; simp at hv
  | cons w ws ih =>
    intro h v hv
    rw [show noWsL (w :: ws) = (noWsStrings w && noWsL ws) from rfl,
        Bool.and_eq_true] at h
    rcases List.mem_cons.mp hv with rfl | hv
    · exact h.1
    · exact ih h.2 v hv

theorem noWsM_mem : ∀ (ms : List (List Nat × cjson_value)), noWsM ms = true →
    ∀ m ∈ ms, (∀ c ∈ m.1, c ≠ 32) ∧ noWsStrings m.2 = true := by
  intro ms
  induction ms with
  | nil => intro _ m hm; simp at hm
  | cons p ps ih =>
    intro h m hm
    rw [show noWsM (p :: ps)
        = (p.1.all (fun b => !(b == 32)) && noWsStrings p.2 && noWsM ps) from rfl,
        Bool.and_eq_true, Bool.and_eq_true] at h
    rcases List.mem_cons.mp hm with rfl | hm
    · refine ⟨?_, h.1.2⟩
      intro c hc
      have := List.all_eq_true.mp h.1.1 c hc
      simpa using this
    · exact ih h.2 m hm

theorem stringify_noWs_aux : ∀ (n : Nat) (v : cjson_value), sizeOf v ≤ n →
    noWsStrings v = true → ∀ out, cjson_stringify_value v = some out →
    ∀ b ∈ out, wsByte b = false := by
  intro n
  induction n with
  | zero =>
    intro v hv
    exfalso
    cases v <;> simp at hv
  | succ n ih =>
    intro v hsz hnw out hout b hb
    cases v with
    | null =>
      rw [show cjson_stringify_value .null = some [110, 117, 108, 108] from rfl] at hout
      cases Option.some.inj hout
      simp at hb
      rcases hb with rfl | rfl | rfl | rfl <;> rfl
    | vtrue =>
      rw [show cjson_stringify_value .vtrue = some [116, 114, 117, 101] from rfl] at hout
      cases Option.some.inj hout
      simp at hb
      rcases hb with rfl | rfl | rfl | rfl <;> rfl
    | vfalse =>
      rw [show cjson_stringify_value .vfalse = some [102, 97, 108, 115, 101] from rfl] at hout
      cases Option.some.inj hout
      simp at hb
      rcases hb with rfl | rfl | rfl | rfl | rfl <;> rfl
    | number d =>
      rw [show cjson_stringify_value (.number d) = some (fmt17 d) from rfl] at hout
      cases Option.some.inj hout
      exact fmt17_noWs d b hb
    | vstring s =>
      rw [show cjson_stringify_value (.vstring s)
          = some (cjson_stringify_string s) from rfl] at hout
      cases Option.some.inj hout
      refine cjson_stringify_string_noWs s ?_ b hb
      intro c hc
      have := List.all_eq_true.mp hnw c hc
      simpa using this
    | varray es =>
      rw [show cjson_stringify_value (.varray es)
          = some ([91] ++ joinComma (stringify_elems es) ++ [93]) from rfl] at hout
      cases Option.some.inj hout
      rcases List.mem_append.mp hb with h | h
      · rcases List.mem_append.mp h with h | h
        · simp at h; subst h; rfl
        · rcases joinComma_mem _ _ h with rfl | ⟨x, hx, hbx⟩
          · rfl
          · rcases stringify_elems_mem _ _ hx with ⟨w, hw, rfl⟩
            cases hso : cjson_stringify_value w with
            | none => rw [hso] at hbx; simp at hbx
            | some o =>
              rw [hso] at hbx
              simp only [Option.getD_some] at hbx
              have hwsz : sizeOf w < sizeOf es := List.sizeOf_lt_of_mem hw
              have hes : sizeOf (cjson_value.varray es) = 1 + sizeOf es := by simp
              refine ih w (by omega) ?_ o hso b hbx
              exact noWsL_mem es hnw w hw
      · simp at h; subst h; rfl
    | vobject ms =>
      rw [show cjson_stringify_value (.vobject ms)
          = some ([123] ++ joinComma (stringify_members ms) ++ [125]) from rfl] at hout
      cases Option.some.inj hout
      rcases List.mem_append.mp hb with h | h
      · rcases List.mem_append.mp h with h | h
        · simp at h; subst h; rfl
        · rcases joinComma_mem _ _ h with rfl | ⟨x, hx, hbx⟩
          · rfl
          · rcases stringify_members_mem _ _ hx with ⟨m, hm, rfl⟩
            have hmkey := noWsM_mem ms hnw m hm
            rcases List.mem_append.mp hbx with h2 | h2
            · rcases List.mem_append.mp h2 with h2 | h2
              · exact cjson_stringify_string_noWs m.1 hmkey.1 b h2
              · simp at h2; subst h2; rfl
            · cases hso : cjson_stringify_value m.2 with
              | none => rw [hso] at h2; simp at h2
              | some o =>
                rw [hso] at h2
                simp only [Option.getD_some] at h2
                have hmsz : sizeOf m < sizeOf ms := List.sizeOf_lt_of_mem hm
                have hm2 : sizeOf m.2 < sizeOf m := by
                  rcases m with ⟨k, w⟩; simp
                have hms : sizeOf (cjson_value.vobject ms) = 1 + sizeOf ms := by simp
                refine ih m.2 (by omega) hmkey.2 o hso b h2
      · simp at h; subst h; rfl
    | unknown t =>
      rw [show cjson_stringify_value (.unknown t) = none from rfl] at hout
      exact Option.noConfusion hout

/-- C9: the serializer escapes every String payload byte and every Object
key byte as follows: `"` as `\"`, `\` as `\\`, 0x08 0x0C 0x0A 0x0D 0x09 as
`\b` `\f` `\n` `\r` `\t`, every other byte below 0x20 as `\u00` plus two
upper-case hex digits, and every remaining byte (including `/` = 0x2F and
UTF-8 multi-byte sequences) verbatim; string values and object keys are
serialized by applying this escaping byte for byte between quotes; and the
output contains no insignificant whitespace: when no String payload or
Object key holds a raw space byte, the serialized buffer contains no
whitespace byte (space, tab, LF, CR) at all. -/
theorem cjson_stringify_escapes :
    (cjson_escape_byte 34 = [92, 34] ∧
     cjson_escape_byte 92 = [92, 92] ∧
     cjson_escape_byte 8 = [92, 98] ∧
     cjson_escape_byte 12 = [92, 102] ∧
     cjson_escape_byte 10 = [92, 110] ∧
     cjson_escape_byte 13 = [92, 114] ∧
     cjson_escape_byte 9 = [92, 116]) ∧
    (∀ ch, ch < 32 → ch ∉ ([34, 92, 8, 12, 10, 13, 9] : List Nat) →
      cjson_escape_byte ch
        = [92, 117, 48, 48, hexDigitU (ch >>> 4), hexDigitU (ch &&& 15)]) ∧
    (∀ n, n < 16 → (48 ≤ hexDigitU n ∧ hexDigitU n ≤ 57) ∨
      (65 ≤ hexDigitU n ∧ hexDigitU n ≤ 70)) ∧
    (∀ ch, 32 ≤ ch → ch ≠ 34 → ch ≠ 92 → cjson_escape_byte ch = [ch]) ∧
    (∀ s, cjson_stringify_value (.vstring s)
        = some (34 :: (s.map cjson_escape_byte).join ++ [34])) ∧
    (∀ k v ms, stringify_members ((k, v) :: ms)
        = (cjson_stringify_string k ++ [58] ++ ((cjson_stringify_value v).getD []))
            :: stringify_members ms) ∧
    (∀ v out len, noWsStrings v = true → cjson_stringify v = some (out, len) →
      ∀ b ∈ out, wsByte b = false) := by
  refine ⟨⟨rfl, rfl, rfl, rfl, rfl, rfl, rfl⟩, ?_, ?_, ?_, fun _ => rfl,
    fun _ _ _ => rfl, ?_⟩
  · intro ch hlt hne
    simp at hne
    unfold cjson_escape_byte
    rw [if_neg (by omega), if_neg (by omega), if_neg (by omega), if_neg (by omega),
        if_neg (by omega), if_neg (by omega), if_neg (by omega), if_pos hlt]
  · intro n hn
    unfold hexDigitU
    split <;> omega
  · intro ch h32 h34 h92
    unfold cjson_escape_byte
    rw [if_neg h34, if_neg h92, if_neg (by omega), if_neg (by omega), if_neg (by omega),
        if_neg (by omega), if_neg (by omega), if_neg (by omega)]
  · intro v out len hnw hout b hb
    unfold cjson_stringify at hout
    cases hso : cjson_stringify_value v with
    | none => rw [hso] at hout; exact Option.noConfusion hout
    | some o =>
      rw [hso] at hout
      simp only [] at hout
      cases Option.some.inj hout
      rcases List.mem_append.mp hb with h | h
      · exact stringify_noWs_aux (sizeOf v) v le_rfl hnw o hso b h
      · simp at h; subst h; rfl

theorem cjson_stringify_escapes_witness :
    cjson_escape_byte 47 = [47] ∧
    cjson_escape_byte 1 = [92, 117, 48, 48, 48, 49] ∧
    cjson_escape_byte 27 = [92, 117, 48, 48, 49, 66] ∧
    wsByte 44 = false := by
  refine ⟨cjson_stringify_escapes.2.2.2.1 47 (by decide) (by decide) (by decide), ?_, ?_, ?_⟩
  · rw [cjson_stringify_escapes.2.1 1 (by decide) (by decide)]; decide
  · rw [cjson_stringify_escapes.2.1 27 (by decide) (by decide)]; decide
  · exact cjson_stringify_escapes.2.2.2.2.2.2
      (.vobject [([107], .vstring [47]), ([106], .varray [.null, .vtrue])])
      [123, 34, 107, 34, 58, 34, 47, 34, 44, 34, 106, 34, 58, 91, 110, 117, 108, 108,
       44, 116, 114, 117, 101, 93, 125, 0] 25 (by decide) rfl 44 (by decide)

theorem find_key_value_mem : ∀ (ms : List (List Nat × cjson_value)) (k : List Nat)
    (w : cjson_value), cjson_find_key_value ms k = some w → (k, w) ∈ ms := by
  intro ms
  induction ms with
  | nil => intro k w h; simp [cjson_find_key_value] at h
  | cons m ms ih =>
    intro k w h
    rw [show cjson_find_key_value (m :: ms) k
        = (if m.1.length == k.length && m.1 == k then some m.2
           else cjson_find_key_value ms k) from rfl] at h
    split at h
    · rename_i hc
      have hk : m.1 = k := by
        rw [Bool.and_eq_true] at hc
        exact eq_of_beq hc.2
      cases Option.some.inj h
      rcases m with ⟨k1, w1⟩
      simp at hk
      subst hk
      exact List.mem_cons_self _ _
    · exact List.mem_cons_of_mem _ (ih k w h)

theorem mem_find_key_value : ∀ (ms : List (List Nat × cjson_value)) (k : List Nat)
    (w : cjson_value), nodupk ms = true → (k, w) ∈ ms →
    cjson_find_key_value ms k = some w := by
  intro ms
  induction ms with
  | nil => intro k w _ h; simp at h
  | cons m ms ih =>
    intro k w hnd hm
    rw [show nodupk (m :: ms) = (ms.all (fun m2 => !(m2.1 == m.1)) && nodupk ms) from rfl,
        Bool.and_eq_true] at hnd
    rw [show cjson_find_key_value (m :: ms) k
        = (if m.1.length == k.length && m.1 == k then some m.2
           else cjson_find_key_value ms k) from rfl]
    rcases List.mem_cons.mp hm with heq | hm
    · cases heq
      rw [if_pos (by simp)]
    · have hne : ¬(m.1.length == k.length && m.1 == k) = true := by
        intro hc
        rw [Bool.and_eq_true] at hc
        have hk : m.1 = k := eq_of_beq hc.2
        have := List.all_eq_true.mp hnd.1 (k, w) hm
        simp at this
        exact this (by simp [hk])
      rw [if_neg hne]
      exact ih k w hnd.2 hm

theorem find_key_value_of_key_mem : ∀ (ms : List (List Nat × cjson_value)) (k : List Nat),
    k ∈ ms.map Prod.fst → ∃ w, cjson_find_key_value ms k = some w ∧ (k, w) ∈ ms := by
  intro ms
  induction ms with
  | nil => intro k h; simp at h
  | cons m ms ih =>
    intro k h
    rw [show cjson_find_key_value (m :: ms) k
        = (if m.1.length == k.length && m.1 == k then some m.2
           else cjson_find_key_value ms k) from rfl]
    by_cases hc : (m.1.length == k.length && m.1 == k) = true
    · refine ⟨m.2, by rw [if_pos hc], ?_⟩
      have hc2 := hc
      rw [Bool.and_eq_true] at hc2
      have hk : m.1 = k := eq_of_beq hc2.2
      subst hk
      exact List.mem_cons_self _ _
    · simp only [List.map_cons, List.mem_cons] at h
      rcases h with rfl | h
      · exact absurd (by simp) hc
      · rcases ih k h with ⟨w, hw, hmem⟩
        exact ⟨w, by rw [if_neg hc]; exact hw, List.mem_cons_of_mem _ hmem⟩

theorem key_mem_of_find_key_value : ∀ (ms : List (List Nat × cjson_value)) (k : List Nat)
    (w : cjson_value), cjson_find_key_value ms k = some w → k ∈ ms.map Prod.fst := by
  intro ms k w h
  have := find_key_value_mem ms k w h
  exact List.mem_map.mpr ⟨(k, w), this, rfl⟩

theorem nodupk_keys : ∀ (ms : List (List Nat × cjson_value)), nodupk ms = true →
    (ms.map Prod.fst).Nodup := by
  intro ms
  induction ms with
  | nil => intro _; simp
  | cons m ms ih =>
    intro hnd
    rw [show nodupk (m :: ms) = (ms.all (fun m2 => !(m2.1 == m.1)) && nodupk ms) from rfl,
        Bool.and_eq_true] at hnd
    simp only [List.map_cons, List.nodup_cons]
    refine ⟨?_, ih hnd.2⟩
    intro hmem
    rcases List.mem_map.mp hmem with ⟨m2, hm2, hk⟩
    have := List.all_eq_true.mp hnd.1 m2 hm2
    simp at this
    exact this (by simp [hk])

theorem obj_eq_loop_iff : ∀ (ms ns : List (List Nat × cjson_value)),
    obj_eq_loop ms ns = true ↔
    ∀ m ∈ ms, ∃ w, cjson_find_key_value ns m.1 = some w ∧ cjson_is_equal m.2 w = 0 := by
  intro ms ns
  induction ms with
  | nil => simp [obj_eq_loop]
  | cons m ms ih =>
    rcases m with ⟨k, v⟩
    rw [show obj_eq_loop ((k, v) :: ms) ns
        = ((match cjson_find_key_value ns k with
            | some w => cjson_is_equal v w == 0
            | none => false) && obj_eq_loop ms ns) from rfl,
        Bool.and_eq_true, ih]
    constructor
    · rintro ⟨h1, h2⟩ m hm
      rcases List.mem_cons.mp hm with rfl | hm
      · cases hf : cjson_find_key_value ns k with
        | none => rw [hf] at h1; exact absurd h1 (by simp)
        | some w =>
          rw [hf] at h1
          exact ⟨w, rfl, by simpa using h1⟩
      · exact h2 m hm
    · intro h
      refine ⟨?_, fun m hm => h m (List.mem_cons_of_mem _ hm)⟩
      rcases h (k, v) (List.mem_cons_self _ _) with ⟨w, hw, he⟩
      rw [hw]
      simpa using he

theorem arr_eq_loop_iff : ∀ (es fs : List cjson_value), es.length = fs.length →
    (arr_eq_loop es fs = true ↔ List.Forall₂ (fun e f => cjson_is_equal e f = 0) es fs) := by
  intro es
  induction es with
  | nil =>
    intro fs hlen
    cases fs with
    | nil => simp [arr_eq_loop]
    | cons f fs => simp at hlen
  | cons e es ih =>
    intro fs hlen
    cases fs with
    | nil => simp at hlen
    | cons f fs =>
      rw [show arr_eq_loop (e :: es) (f :: fs)
          = ((cjson_is_equal e f == 0) && arr_eq_loop es fs) from rfl]
      simp only [List.length_cons] at hlen
      rw [Bool.and_eq_true, List.forall₂_cons, ih fs (by omega)]
      simp [beq_iff_eq]

theorem f64_eq_iff (a b : F64) : f64_eq a b = true ↔
    a.isNan = false ∧ b.isNan = false ∧
      ((a.isZero = true ∧ b.isZero = true) ∨ a = b) := by
  unfold f64_eq
  rcases ha : a.isNan <;> rcases hb : b.isNan <;>
    rcases haz : a.isZero <;> rcases hbz : b.isZero <;>
      simp [ha, hb, haz, hbz, beq_iff_eq]

theorem wfEqL_mem : ∀ (es : List cjson_value), wfEqL es = true →
    ∀ v ∈ es, wfEq v = true := by
  intro es
  induction es with
  | nil => intro _ v hv; simp at hv
  | cons w ws ih =>
    intro h v hv
    rw [show wfEqL (w :: ws) = (wfEq w && wfEqL ws) from rfl, Bool.and_eq_true] at h
    rcases List.mem_cons.mp hv with rfl | hv
    · exact h.1
    · exact ih h.2 v hv

theorem wfEqM_mem : ∀ (ms : List (List Nat × cjson_value)), wfEqM ms = true →
    ∀ m ∈ ms, wfEq m.2 = true := by
  intro ms
  induction ms with
  | nil => intro _ m hm; simp at hm
  | cons p ps ih =>
    intro h m hm
    rw [show wfEqM (p :: ps) = (wfEq p.2 && wfEqM ps) from rfl, Bool.and_eq_true] at h
    rcases List.mem_cons.mp hm with rfl | hm
    · exact h.1
    · exact ih h.2 m hm

theorem nodupk_iff : ∀ (ms : List (List Nat × cjson_value)),
    nodupk ms = true ↔ (ms.map Prod.fst).Nodup := by
  intro ms
  induction ms with
  | nil => simp [nodupk]
  | cons m ms ih =>
    rw [show nodupk (m :: ms) = (ms.all (fun m2 => !(m2.1 == m.1)) && nodupk ms) from rfl,
        Bool.and_eq_true, ih]
    simp only [List.map_cons, List.nodup_cons]
    constructor
    · rintro ⟨h1, h2⟩
      refine ⟨?_, h2⟩
      intro hmem
      rcases List.mem_map.mp hmem with ⟨m2, hm2, hk⟩
      have := List.all_eq_true.mp h1 m2 hm2
      simp at this
      exact this (by simp [hk])
    · rintro ⟨h1, h2⟩
      refine ⟨?_, h2⟩
      rw [List.all_eq_true]
      intro m2 hm2
      simp only [Bool.not_eq_true']
      rw [beq_eq_false_iff_ne]
      intro hk
      exact h1 (List.mem_map.mpr ⟨m2, hm2, hk⟩)

theorem is_equal_obj_unfold (ms ns : List (List Nat × cjson_value)) :
    cjson_is_equal (.vobject ms) (.vobject ns)
      = if ms.length ≠ ns.length then -1
        else if obj_eq_loop ms ns then 0 else -1 := rfl

theorem is_equal_arr_unfold (es fs : List cjson_value) :
    cjson_is_equal (.varray es) (.varray fs)
      = if es.length ≠ fs.length then -1
        else if arr_eq_loop es fs then 0 else -1 := rfl

theorem is_equal_num_unfold (a b : F64) :
    cjson_is_equal (.number a) (.number b)
      = if ¬ f64_eq a b then -1 else 0 := rfl

theorem is_equal_str_unfold (s t : List Nat) :
    cjson_is_equal (.vstring s) (.vstring t)
      = if s.length == t.length && s == t then 0 else -1 := rfl

theorem is_equal_ne_tag (u v : cjson_value) (h : u.tag ≠ v.tag) :
    cjson_is_equal u v = -1 := by
  unfold cjson_is_equal
  rw [if_pos h]

theorem is_equal_tag_eq (u v : cjson_value) (h : cjson_is_equal u v = 0) :
    u.tag = v.tag := by
  by_contra hne
  rw [is_equal_ne_tag u v hne] at h
  exact absurd h (by decide)

theorem is_equal_refl_aux : ∀ (n : Nat) (v : cjson_value), sizeOf v ≤ n →
    wfEq v = true → cjson_is_equal v v = 0 := by
  intro n
  induction n with
  | zero => intro v hv _; exfalso; cases v <;> simp at hv
  | succ n ih =>
    intro v hsz hwf
    cases v with
    | null => rfl
    | vtrue => rfl
    | vfalse => rfl
    | unknown t =>
      rw [show cjson_is_equal (.unknown t) (.unknown t)
          = if t ≠ t then (-1 : Int) else 0 from rfl]
      simp
    | number a =>
      have hna : a.isNan = false := by
        have h2 : (!a.isNan) = true := hwf
        simpa using h2
      have hf : f64_eq a a = true := by
        rw [f64_eq_iff]
        exact ⟨hna, hna, Or.inr rfl⟩
      simp [is_equal_num_unfold, hf]
    | vstring s =>
      simp [is_equal_str_unfold]
    | varray es =>
      have hL : wfEqL es = true := hwf
      have harr : arr_eq_loop es es = true := by
        rw [arr_eq_loop_iff es es rfl, List.forall₂_same]
        intro e he
        refine ih e ?_ (wfEqL_mem es hL e he)
        have h1 : sizeOf e < sizeOf es := List.sizeOf_lt_of_mem he
        have h2 : sizeOf (cjson_value.varray es) = 1 + sizeOf es := by simp
        omega
      simp [is_equal_arr_unfold, harr]
    | vobject ms =>
      have h2 : (nodupk ms && wfEqM ms) = true := hwf
      rw [Bool.and_eq_true] at h2
      have hloop : obj_eq_loop ms ms = true := by
        rw [obj_eq_loop_iff]
        intro m hm
        refine ⟨m.2, mem_find_key_value ms m.1 m.2 h2.1 hm, ?_⟩
        refine ih m.2 ?_ (wfEqM_mem ms h2.2 m hm)
        have hs1 : sizeOf m < sizeOf ms := List.sizeOf_lt_of_mem hm
        have hs2 : sizeOf m.2 < sizeOf m := by rcases m with ⟨k, w⟩; simp
        have hs3 : sizeOf (cjson_value.vobject ms) = 1 + sizeOf ms := by simp
        omega
      simp [is_equal_obj_unfold, hloop]

theorem forall2_symm_aux (n : Nat)
    (ih : ∀ u v, sizeOf u ≤ n → wfEq u = true → wfEq v = true →
      cjson_is_equal u v = 0 → cjson_is_equal v u = 0) :
    ∀ es fs : List cjson_value, (∀ e ∈ es, sizeOf e ≤ n) →
    wfEqL es = true → wfEqL fs = true →
    List.Forall₂ (fun e f => cjson_is_equal e f = 0) es fs →
    List.Forall₂ (fun e f => cjson_is_equal e f = 0) fs es := by
  intro es
  induction es with
  | nil =>
    intro fs _ _ _ hF
    cases hF
    constructor
  | cons e es ihl =>
    intro fs hb hL hLf hF
    cases hF with
    | cons h1 h2 =>
      rename_i f fs'
      rw [show wfEqL (e :: es) = (wfEq e && wfEqL es) from rfl, Bool.and_eq_true] at hL
      rw [show wfEqL (f :: fs') = (wfEq f && wfEqL fs') from rfl, Bool.and_eq_true] at hLf
      constructor
      · exact ih e f (hb e (by simp)) hL.1 hLf.1 h1
      · exact ihl fs' (fun x hx => hb x (List.mem_cons_of_mem _ hx)) hL.2 hLf.2 h2

theorem is_equal_symm_aux : ∀ (n : Nat) (u v : cjson_value), sizeOf u ≤ n →
    wfEq u = true → wfEq v = true → cjson_is_equal u v = 0 →
    cjson_is_equal v u = 0 := by
  intro n
  induction n with
  | zero => intro u v hu; exfalso; cases u <;> simp at hu
  | succ n ih =>
    intro u v hsz hwfu hwfv h
    cases u <;> cases v <;>
      first
        | rfl
        | exact Int.noConfusion h
        | (simp [cjson_is_equal, cjson_value.tag] at h ⊢
           simp [wfEq] at hwfu hwfv
           omega)
        | (simp [cjson_is_equal, cjson_value.tag] at h ⊢
           omega)
        | skip
    · -- number
      rename_i a b
      have hab : f64_eq a b = true := by
        by_contra hc
        rw [is_equal_num_unfold, if_pos hc] at h
        exact absurd h (by decide)
      have hba : f64_eq b a = true := by
        rw [f64_eq_iff] at hab ⊢
        refine ⟨hab.2.1, hab.1, ?_⟩
        rcases hab.2.2 with ⟨x, y⟩ | rfl
        · exact Or.inl ⟨y, x⟩
        · exact Or.inr rfl
      simp [is_equal_num_unfold, hba]
    · -- vstring
      rename_i s t
      rw [is_equal_str_unfold] at h ⊢
      split at h
      · rename_i hc
        rw [Bool.and_eq_true] at hc
        have hst : s = t := eq_of_beq hc.2
        subst hst
        rw [if_pos (by simp)]
      · exact absurd h (by decide)
    · -- varray
      rename_i es fs
      rw [is_equal_arr_unfold] at h ⊢
      split at h
      · exact absurd h (by decide)
      · rename_i hlen
        split at h
        · rename_i hloop
          have hlen' : es.length = fs.length := of_not_not hlen
          have hF := (arr_eq_loop_iff es fs hlen').mp hloop
          have hbound : ∀ e ∈ es, sizeOf e ≤ n := by
            intro e he
            have h1 : sizeOf e < sizeOf es := List.sizeOf_lt_of_mem he
            have h2 : sizeOf (cjson_value.varray es) = 1 + sizeOf es := by simp
            omega
          have hG := forall2_symm_aux n (fun u2 v2 => ih u2 v2) es fs hbound hwfu hwfv hF
          rw [if_neg (by omega), if_pos ((arr_eq_loop_iff fs es hlen'.symm).mpr hG)]
        · exact absurd h (by decide)
    · -- vobject
      rename_i ms ns
      have hcu : (nodupk ms && wfEqM ms) = true := hwfu
      have hcv : (nodupk ns && wfEqM ns) = true := hwfv
      rw [Bool.and_eq_true] at hcu hcv
      rw [is_equal_obj_unfold] at h ⊢
      split at h
      · exact absurd h (by decide)
      · rename_i hlen
        split at h
        · rename_i hloop
          have hlen' : ms.length = ns.length := of_not_not hlen
          rw [obj_eq_loop_iff] at hloop
          have hsub : ∀ k ∈ ms.map Prod.fst, k ∈ ns.map Prod.fst := by
            intro k hk
            rcases List.mem_map.mp hk with ⟨m, hm, rfl⟩
            rcases hloop m hm with ⟨w, hw, _⟩
            exact key_mem_of_find_key_value ns m.1 w hw
          have hperm : (ms.map Prod.fst).Perm (ns.map Prod.fst) := by
            have hsp := List.subperm_of_subset (nodupk_keys ms hcu.1) hsub
            exact hsp.perm_of_length_le (by simp [hlen'])
          have hloop2 : obj_eq_loop ns ms = true := by
            rw [obj_eq_loop_iff]
            intro m hm
            have hkm : m.1 ∈ ms.map Prod.fst :=
              hperm.symm.subset (List.mem_map.mpr ⟨m, hm, rfl⟩)
            rcases find_key_value_of_key_mem ms m.1 hkm with ⟨v', hfind, hvmem⟩
            rcases hloop (m.1, v') hvmem with ⟨w2, hw2, he⟩
            have hwfind : cjson_find_key_value ns m.1 = some m.2 :=
              mem_find_key_value ns m.1 m.2 hcv.1 hm
            rw [hwfind] at hw2
            cases Option.some.inj hw2
            refine ⟨v', hfind, ?_⟩
            refine ih v' m.2 ?_ (wfEqM_mem ms hcu.2 (m.1, v') hvmem)
              (wfEqM_mem ns hcv.2 m hm) he
            have h1 : sizeOf (m.1, v') < sizeOf ms := List.sizeOf_lt_of_mem hvmem
            have h2 : sizeOf v' < sizeOf (m.1, v') := by simp
            have h3 : sizeOf (cjson_value.vobject ms) = 1 + sizeOf ms := by simp
            omega
          rw [if_neg (by omega), if_pos hloop2]
        · exact absurd h (by decide)

theorem is_equal_arr_iff (es fs : List cjson_value) :
    cjson_is_equal (.varray es) (.varray fs) = 0 ↔
    es.length = fs.length ∧ arr_eq_loop es fs = true := by
  rw [is_equal_arr_unfold]
  constructor
  · intro h
    split at h
    · exact absurd h (by decide)
    · rename_i hlen
      split at h
      · exact ⟨of_not_not hlen, by assumption⟩
      · exact absurd h (by decide)
  · rintro ⟨h1, h2⟩
    rw [if_neg (by omega), if_pos h2]

theorem is_equal_obj_iff (ms ns : List (List Nat × cjson_value)) :
    cjson_is_equal (.vobject ms) (.vobject ns) = 0 ↔
    ms.length = ns.length ∧ obj_eq_loop ms ns = true := by
  rw [is_equal_obj_unfold]
  constructor
  · intro h
    split at h
    · exact absurd h (by decide)
    · rename_i hlen
      split at h
      · exact ⟨of_not_not hlen, by assumption⟩
      · exact absurd h (by decide)
  · rintro ⟨h1, h2⟩
    rw [if_neg (by omega), if_pos h2]

theorem is_equal_str_iff (s t : List Nat) :
    cjson_is_equal (.vstring s) (.vstring t) = 0 ↔ s = t := by
  rw [is_equal_str_unfold]
  constructor
  · intro h
    split at h
    · rename_i hc
      rw [Bool.and_eq_true] at hc
      exact eq_of_beq hc.2
    · exact absurd h (by decide)
  · rintro rfl
    rw [if_pos (by simp)]

theorem is_equal_num_iff2 (a b : F64) :
    cjson_is_equal (.number a) (.number b) = 0 ↔ f64_eq a b = true := by
  rw [is_equal_num_unfold]
  constructor
  · intro h
    by_contra hc
    rw [if_pos hc] at h
    exact absurd h (by decide)
  · intro hf
    rw [if_neg (by simp [hf])]

theorem forall2_trans_aux (n : Nat)
    (ih : ∀ u v w, sizeOf u ≤ n → wfEq u = true → wfEq v = true → wfEq w = true →
      cjson_is_equal u v = 0 → cjson_is_equal v w = 0 → cjson_is_equal u w = 0) :
    ∀ es fs gs : List cjson_value, (∀ e ∈ es, sizeOf e ≤ n) →
    wfEqL es = true → wfEqL fs = true → wfEqL gs = true →
    List.Forall₂ (fun e f => cjson_is_equal e f = 0) es fs →
    List.Forall₂ (fun e f => cjson_is_equal e f = 0) fs gs →
    List.Forall₂ (fun e f => cjson_is_equal e f = 0) es gs := by
  intro es
  induction es with
  | nil =>
    intro fs gs _ _ _ _ hF1 hF2
    cases hF1
    cases hF2
    constructor
  | cons e es ihl =>
    intro fs gs hb hL1 hL2 hL3 hF1 hF2
    cases hF1 with
    | cons h1 h1s =>
      rename_i f fs'
      cases hF2 with
      | cons h2 h2s =>
        rename_i g gs'
        rw [show wfEqL (e :: es) = (wfEq e && wfEqL es) from rfl, Bool.and_eq_true] at hL1
        rw [show wfEqL (f :: fs') = (wfEq f && wfEqL fs') from rfl, Bool.and_eq_true] at hL2
        rw [show wfEqL (g :: gs') = (wfEq g && wfEqL gs') from rfl, Bool.and_eq_true] at hL3
        constructor
        · exact ih e f g (hb e (by simp)) hL1.1 hL2.1 hL3.1 h1 h2
        · exact ihl fs' gs' (fun x hx => hb x (List.mem_cons_of_mem _ hx))
            hL1.2 hL2.2 hL3.2 h1s h2s

theorem is_equal_trans_aux : ∀ (n : Nat) (u v w : cjson_value), sizeOf u ≤ n →
    wfEq u = true → wfEq v = true → wfEq w = true →
    cjson_is_equal u v = 0 → cjson_is_equal v w = 0 →
    cjson_is_equal u w = 0 := by
  intro n
  induction n with
  | zero => intro u v w hu; exfalso; cases u <;> simp at hu
  | succ n ih =>
    intro u v w hsz hwfu hwfv hwfw h1 h2
    cases u <;> cases v <;>
      first
        | exact Int.noConfusion h1
        | (simp [cjson_is_equal, cjson_value.tag] at h1
           simp [wfEq] at hwfu hwfv
           omega)
        | skip
    all_goals
      cases w <;>
        first
          | exact Int.noConfusion h2
          | (simp [cjson_is_equal, cjson_value.tag] at h2
             simp [wfEq] at hwfv hwfw
             omega)
          | skip
    · -- number
      rename_i a b c
      rw [is_equal_num_iff2] at h1 h2 ⊢
      rw [f64_eq_iff] at h1 h2 ⊢
      refine ⟨h1.1, h2.2.1, ?_⟩
      rcases h1.2.2 with hz1 | rfl
      · rcases h2.2.2 with hz2 | rfl
        · exact Or.inl ⟨hz1.1, hz2.2⟩
        · exact Or.inl hz1
      · exact h2.2.2
    · -- vstring
      rename_i s t r
      rw [is_equal_str_iff] at h1 h2 ⊢
      exact h1.trans h2
    · -- varray
      rename_i es fs gs
      rw [is_equal_arr_iff] at h1 h2 ⊢
      have hlen := h1.1.trans h2.1
      refine ⟨hlen, ?_⟩
      rw [arr_eq_loop_iff es gs hlen]
      have hF1 := (arr_eq_loop_iff _ _ h1.1).mp h1.2
      have hF2 := (arr_eq_loop_iff _ _ h2.1).mp h2.2
      have hbound : ∀ e ∈ es, sizeOf e ≤ n := by
        intro e he
        have hs1 : sizeOf e < sizeOf es := List.sizeOf_lt_of_mem he
        have hs2 : sizeOf (cjson_value.varray es) = 1 + sizeOf es := by simp
        omega
      exact forall2_trans_aux n (fun u2 v2 w2 => ih u2 v2 w2) es fs gs hbound
        hwfu hwfv hwfw hF1 hF2
    · -- vobject
      rename_i ms ns os
      have hcu : (nodupk ms && wfEqM ms) = true := hwfu
      have hcv : (nodupk ns && wfEqM ns) = true := hwfv
      have hcw : (nodupk os && wfEqM os) = true := hwfw
      rw [Bool.and_eq_true] at hcu hcv hcw
      rw [is_equal_obj_iff] at h1 h2 ⊢
      refine ⟨h1.1.trans h2.1, ?_⟩
      rw [obj_eq_loop_iff]
      intro m hm
      have hloop12 := (obj_eq_loop_iff _ _).mp h1.2
      have hloop23 := (obj_eq_loop_iff _ _).mp h2.2
      rcases hloop12 m hm with ⟨w2, hw2, he1⟩
      have hwmem : (m.1, w2) ∈ ns := find_key_value_mem ns m.1 w2 hw2
      rcases hloop23 (m.1, w2) hwmem with ⟨x, hx, he2⟩
      have hxmem : (m.1, x) ∈ os := find_key_value_mem os m.1 x hx
      refine ⟨x, hx, ?_⟩
      refine ih m.2 w2 x ?_ (wfEqM_mem ms hcu.2 m hm)
        (wfEqM_mem ns hcv.2 (m.1, w2) hwmem) (wfEqM_mem os hcw.2 (m.1, x) hxmem) he1 he2
      have hs1 : sizeOf m < sizeOf ms := List.sizeOf_lt_of_mem hm
      have hs2 : sizeOf m.2 < sizeOf m := by rcases m with ⟨k, w3⟩; simp
      have hs3 : sizeOf (cjson_value.vobject ms) = 1 + sizeOf ms := by simp
      omega
    · -- unknown
      rename_i t t2 t3
      simp [cjson_is_equal, cjson_value.tag] at h1 h2 ⊢
      omega

theorem wfEqL_iff : ∀ (es : List cjson_value),
    wfEqL es = true ↔ ∀ v ∈ es, wfEq v = true := by
  intro es
  induction es with
  | nil => simp [wfEqL]
  | cons w ws ih =>
    rw [show wfEqL (w :: ws) = (wfEq w && wfEqL ws) from rfl, Bool.and_eq_true, ih]
    constructor
    · rintro ⟨h1, h2⟩ v hv
      rcases List.mem_cons.mp hv with rfl | hv
      · exact h1
      · exact h2 v hv
    · intro h
      exact ⟨h w (by simp), fun v hv => h v (List.mem_cons_of_mem _ hv)⟩

theorem wfEqM_iff : ∀ (ms : List (List Nat × cjson_value)),
    wfEqM ms = true ↔ ∀ m ∈ ms, wfEq m.2 = true := by
  intro ms
  induction ms with
  | nil => simp [wfEqM]
  | cons p ps ih =>
    rw [show wfEqM (p :: ps) = (wfEq p.2 && wfEqM ps) from rfl, Bool.and_eq_true, ih]
    constructor
    · rintro ⟨h1, h2⟩ m hm
      rcases List.mem_cons.mp hm with rfl | hm
      · exact h1
      · exact h2 m hm
    · intro h
      exact ⟨h p (by simp), fun m hm => h m (List.mem_cons_of_mem _ hm)⟩

theorem obj_perm_equal (ms ns : List (List Nat × cjson_value))
    (hwf : wfEq (.vobject ms) = true) (hperm : List.Perm ms ns) :
    cjson_is_equal (.vobject ms) (.vobject ns) = 0 := by
  have hc : (nodupk ms && wfEqM ms) = true := hwf
  rw [Bool.and_eq_true] at hc
  have hndn : nodupk ns = true := by
    rw [nodupk_iff]
    exact ((hperm.map Prod.fst).nodup_iff).mp ((nodupk_iff ms).mp hc.1)
  rw [is_equal_obj_iff]
  refine ⟨hperm.length_eq, ?_⟩
  rw [obj_eq_loop_iff]
  intro m hm
  refine ⟨m.2, mem_find_key_value ns m.1 m.2 hndn (hperm.subset hm), ?_⟩
  exact is_equal_refl_aux (sizeOf m.2) m.2 le_rfl (wfEqM_mem ms hc.2 m hm)

/-- Claim C6 counterexample: with duplicated member keys `cjson_is_equal`
is neither symmetric nor reflexive.  Every member key of the lhs is looked
up in the rhs by first match, so `{"a":true,"a":true}` equals
`{"a":true,"a":false}` (both lookups hit the first member) but not the
other way around, and `{"a":true,"a":false}` does not even equal itself. -/
theorem cjson_is_equal_not_equivalence_counterexample :
    cjson_is_equal (.vobject [([97], .vtrue), ([97], .vtrue)])
      (.vobject [([97], .vtrue), ([97], .vfalse)]) = 0 ∧
    cjson_is_equal (.vobject [([97], .vtrue), ([97], .vfalse)])
      (.vobject [([97], .vtrue), ([97], .vtrue)]) = -1 ∧
    cjson_is_equal (.vobject [([97], .vtrue), ([97], .vfalse)])
      (.vobject [([97], .vtrue), ([97], .vfalse)]) = -1 := by
  refine ⟨rfl, rfl, rfl⟩

/-- C6 (amended): `cjson_is_equal` (0 = equal) is an equivalence --
reflexive, symmetric and transitive -- over trees in which no Number
payload is NaN, every object level has pairwise-distinct member keys and
every out-of-range tag is genuinely out of range (`wfEq`); two Object
values whose member lists are permutations of one another compare equal
both ways (membership is checked by key lookup, order-insensitively);
and Array values compare order-sensitively: equal exactly when their
elements are pairwise equal in order. -/
theorem cjson_is_equal_equiv_amended :
    (∀ v, wfEq v = true → cjson_is_equal v v = 0) ∧
    (∀ u v, wfEq u = true → wfEq v = true →
      cjson_is_equal u v = 0 → cjson_is_equal v u = 0) ∧
    (∀ u v w, wfEq u = true → wfEq v = true → wfEq w = true →
      cjson_is_equal u v = 0 → cjson_is_equal v w = 0 → cjson_is_equal u w = 0) ∧
    (∀ ms ns, wfEq (.vobject ms) = true → List.Perm ms ns →
      cjson_is_equal (.vobject ms) (.vobject ns) = 0 ∧
      cjson_is_equal (.vobject ns) (.vobject ms) = 0) ∧
    (∀ es fs, cjson_is_equal (.varray es) (.varray fs) = 0 ↔
      List.Forall₂ (fun e f => cjson_is_equal e f = 0) es fs) := by
  refine ⟨?_, ?_, ?_, ?_, ?_⟩
  · intro v hv
    exact is_equal_refl_aux (sizeOf v) v le_rfl hv
  · intro u v hu hv h
    exact is_equal_symm_aux (sizeOf u) u v le_rfl hu hv h
  · intro u v w hu hv hw h1 h2
    exact is_equal_trans_aux (sizeOf u) u v w le_rfl hu hv hw h1 h2
  · intro ms ns hwf hperm
    have hwfn : wfEq (.vobject ns) = true := by
      have hc : (nodupk ms && wfEqM ms) = true := hwf
      rw [Bool.and_eq_true] at hc
      have h1 : nodupk ns = true := by
        rw [nodupk_iff]
        exact ((hperm.map Prod.fst).nodup_iff).mp ((nodupk_iff ms).mp hc.1)
      have h2 : wfEqM ns = true := by
        rw [wfEqM_iff]
        intro m hm
        exact wfEqM_mem ms hc.2 m (hperm.symm.subset hm)
      show (nodupk ns && wfEqM ns) = true
      rw [Bool.and_eq_true]
      exact ⟨h1, h2⟩
    exact ⟨obj_perm_equal ms ns hwf hperm, obj_perm_equal ns ms hwfn hperm.symm⟩
  · intro es fs
    rw [is_equal_arr_iff]
    constructor
    · rintro ⟨h1, h2⟩
      exact (arr_eq_loop_iff es fs h1).mp h2
    · intro hF
      have h1 := hF.length_eq
      exact ⟨h1, (arr_eq_loop_iff es fs h1).mpr hF⟩

theorem cjson_is_equal_equiv_amended_witness :
    cjson_is_equal (.vobject [([97], .vtrue), ([98], .vfalse)])
      (.vobject [([98], .vfalse), ([97], .vtrue)]) = 0 ∧
    cjson_is_equal (.varray [.null, .vstring [104]]) (.varray [.null, .vstring [104]]) = 0 := by
  refine ⟨(cjson_is_equal_equiv_amended.2.2.2.1 [([97], .vtrue), ([98], .vfalse)]
      [([98], .vfalse), ([97], .vtrue)] (by decide) (List.Perm.swap _ _ _)).1, ?_⟩
  exact cjson_is_equal_equiv_amended.1 (.varray [.null, .vstring [104]]) (by decide)

theorem pow2Above_le : ∀ f n k, pow2Above f n k ≤ k * 2 ^ f := by
  intro f
  induction f with
  | zero => intro n k; simp [pow2Above]
  | succ f ih =>
    intro n k
    rw [pow2Above]
    split
    · have : (1 : Nat) ≤ 2 ^ (f + 1) := Nat.one_le_two_pow
      nlinarith
    · calc pow2Above f n (2 * k) ≤ 2 * k * 2 ^ f := ih n (2 * k)
        _ = k * 2 ^ (f + 1) := by ring

theorem pow2Above_spec : ∀ f n k, n < 2 ^ (k * 2 ^ f) → n < 2 ^ pow2Above f n k := by
  intro f
  induction f with
  | zero => intro n k h; simpa [pow2Above] using h
  | succ f ih =>
    intro n k h
    rw [pow2Above]
    split
    · rename_i hlt
      rw [bpow_eq] at hlt
      exact hlt
    · refine ih n (2 * k) ?_
      have : 2 * k * 2 ^ f = k * 2 ^ (f + 1) := by ring
      rw [this]
      exact h

theorem nbSearch_spec : ∀ f n lo hi, 2 ^ lo ≤ n → n < 2 ^ hi → hi - lo ≤ 2 ^ f →
    2 ^ nbSearch f n lo hi ≤ n ∧ n < 2 ^ (nbSearch f n lo hi + 1) := by
  intro f
  induction f with
  | zero =>
    intro n lo hi h1 h2 h3
    have hlt : lo < hi := by
      by_contra hc
      push_neg at hc
      have := Nat.pow_le_pow_right (show 1 ≤ 2 by omega) hc
      omega
    have : hi = lo + 1 := by omega
    subst this
    exact ⟨by simpa [nbSearch] using h1, by simpa [nbSearch] using h2⟩
  | succ f ih =>
    intro n lo hi h1 h2 h3
    have hlt : lo < hi := by
      by_contra hc
      push_neg at hc
      have := Nat.pow_le_pow_right (show 1 ≤ 2 by omega) hc
      omega
    rw [nbSearch]
    split
    · rename_i hle
      have : hi = lo + 1 := by omega
      subst this
      exact ⟨h1, h2⟩
    · rename_i hgt
      push_neg at hgt
      have h2f : 2 ^ (f + 1) = 2 * 2 ^ f := by ring
      dsimp only []
      split
      · rename_i hmid
        rw [bpow_eq] at hmid
        exact ih n lo ((lo + hi) / 2) h1 hmid (by omega)
      · rename_i hmid
        rw [bpow_eq] at hmid
        push_neg at hmid
        exact ih n ((lo + hi) / 2) hi hmid h2 (by omega)

theorem nbits_spec (n : Nat) (hn : 1 ≤ n) :
    2 ^ (nbits n - 1) ≤ n ∧ n < 2 ^ nbits n ∧ 1 ≤ nbits n := by
  unfold nbits
  rw [if_neg (by omega)]
  have hup : n < 2 ^ pow2Above n n 1 := by
    refine pow2Above_spec n n 1 ?_
    have h1 : n < 2 ^ n := Nat.lt_two_pow n
    have h2 : 2 ^ n ≤ 2 ^ (1 * 2 ^ n) := by
      refine Nat.pow_le_pow_right (by omega) ?_
      have := Nat.lt_two_pow n
      omega
    omega
  have hbound : pow2Above n n 1 - 0 ≤ 2 ^ (2 * n + 2) := by
    have h1 := pow2Above_le n n 1
    have h2 : 2 ^ n ≤ 2 ^ (2 * n + 2) := Nat.pow_le_pow_right (by omega) (by omega)
    simpa using le_trans (by simpa using h1) h2
  have := nbSearch_spec (2 * n + 2) n 0 (pow2Above n n 1) (by simpa using hn) hup hbound
  refine ⟨by simpa using this.1, by simpa using this.2, by omega⟩

theorem qlog2_upper (num den : Nat) (hnum : 1 ≤ num) (hden : 1 ≤ den) :
    (0 ≤ qlog2 num den + 1 → num < 2 ^ (qlog2 num den + 1).toNat * den) ∧
    (qlog2 num den + 1 < 0 → num * 2 ^ (-(qlog2 num den + 1)).toNat < den) := by
  obtain ⟨ha1, ha2, ha3⟩ := nbits_spec num hnum
  obtain ⟨hb1, hb2, hb3⟩ := nbits_spec den hden
  unfold qlog2
  dsimp only []
  split
  · constructor
    · intro hge
      have hab : ((nbits num : Int) - nbits den + 1).toNat
          = nbits num + 1 - nbits den := by omega
      rw [hab]
      calc num < 2 ^ nbits num := ha2
        _ = 2 ^ (nbits num + 1 - nbits den) * 2 ^ (nbits den - 1) := by
            rw [← pow_add]
            congr 1
            omega
        _ ≤ 2 ^ (nbits num + 1 - nbits den) * den := Nat.mul_le_mul_left _ hb1
    · intro hlt
      have hab : (-((nbits num : Int) - nbits den + 1)).toNat
          = nbits den - nbits num - 1 := by omega
      rw [hab]
      calc num * 2 ^ (nbits den - nbits num - 1)
          < 2 ^ nbits num * 2 ^ (nbits den - nbits num - 1) :=
            (Nat.mul_lt_mul_right (Nat.pos_pow_of_pos _ (by omega))).mpr ha2
        _ = 2 ^ (nbits den - 1) := by rw [← pow_add]; congr 1; omega
        _ ≤ den := hb1
  · rename_i hfalse
    rw [pow2le] at hfalse
    have hs : ((nbits num : Int) - nbits den - 1) + 1
        = (nbits num : Int) - nbits den := by ring
    rw [hs]
    by_cases h0 : (0 : Int) ≤ (nbits num : Int) - nbits den
    · rw [if_pos h0] at hfalse
      rw [bpow_eq] at hfalse
      simp only [decide_eq_true_eq] at hfalse
      push_neg at hfalse
      exact ⟨fun _ => hfalse, fun hc => absurd h0 (by omega)⟩
    · rw [if_neg h0] at hfalse
      rw [bpow_eq] at hfalse
      simp only [decide_eq_true_eq] at hfalse
      push_neg at hfalse
      exact ⟨fun hc => absurd hc (by omega), fun _ => hfalse⟩

theorem rdiv_le (n d B : Nat) (hd : 0 < d) (h : n < B * d) : rdiv n d ≤ B := by
  unfold rdiv
  dsimp only []
  have hq : n / d < B := by
    rw [Nat.div_lt_iff_lt_mul hd]
    exact h
  split <;> omega

theorem strtod_n_lt (num den : Nat) (hnum : 1 ≤ num) (hden : 1 ≤ den) :
    (if 0 ≤ max (qlog2 num den - 52) (-1074) then num
     else num * bpow 2 (-(max (qlog2 num den - 52) (-1074))).toNat)
    < 2 ^ 53 *
      (if 0 ≤ max (qlog2 num den - 52) (-1074) then
        den * bpow 2 (max (qlog2 num den - 52) (-1074)).toNat
      else den) := by
  obtain ⟨hup1, hup2⟩ := qlog2_upper num den hnum hden
  by_cases he : (0 : Int) ≤ max (qlog2 num den - 52) (-1074)
  · rw [if_pos he, if_pos he]
    have hE : 52 ≤ qlog2 num den := by
      rcases max_cases (qlog2 num den - 52) (-1074 : Int) with ⟨hm, _⟩ | ⟨hm, _⟩ <;> omega
    have hmax : max (qlog2 num den - 52) (-1074 : Int) = qlog2 num den - 52 := by
      apply max_eq_left
      omega
    rw [hmax, bpow_eq]
    have h1 := hup1 (by omega)
    have ht : (qlog2 num den + 1).toNat = 53 + (qlog2 num den - 52).toNat := by omega
    rw [ht, pow_add] at h1
    calc num < 2 ^ 53 * 2 ^ (qlog2 num den - 52).toNat * den := h1
      _ = 2 ^ 53 * (den * 2 ^ (qlog2 num den - 52).toNat) := by ring
  · rw [if_neg he, if_neg he]
    by_cases hm : (-1074 : Int) ≤ qlog2 num den - 52
    · have hmax : max (qlog2 num den - 52) (-1074 : Int) = qlog2 num den - 52 :=
        max_eq_left hm
      rw [hmax] at he ⊢
      have hE : qlog2 num den < 52 := by omega
      rw [bpow_eq]
      by_cases h1c : (0 : Int) ≤ qlog2 num den + 1
      · have h1 := hup1 h1c
        have ht : (-(qlog2 num den - 52)).toNat
            = 53 - (qlog2 num den + 1).toNat := by omega
        rw [ht]
        have hmul := (Nat.mul_lt_mul_right
          (Nat.pos_pow_of_pos (53 - (qlog2 num den + 1).toNat) (show 0 < 2 by omega))).mpr h1
        calc num * 2 ^ (53 - (qlog2 num den + 1).toNat)
            < 2 ^ (qlog2 num den + 1).toNat * den
                * 2 ^ (53 - (qlog2 num den + 1).toNat) := hmul
          _ = 2 ^ ((qlog2 num den + 1).toNat + (53 - (qlog2 num den + 1).toNat)) * den := by
              rw [pow_add]; ring
          _ = 2 ^ 53 * den := by
              congr 2
              omega
      · have h2 := hup2 (by omega)
        have ht : (-(qlog2 num den - 52)).toNat
            = (-(qlog2 num den + 1)).toNat + 53 := by omega
        rw [ht, pow_add, ← Nat.mul_assoc]
        have hmul := (Nat.mul_lt_mul_right
          (Nat.pos_pow_of_pos 53 (show 0 < 2 by omega))).mpr h2
        calc num * 2 ^ (-(qlog2 num den + 1)).toNat * 2 ^ 53
          < den * 2 ^ 53 := hmul
          _ = 2 ^ 53 * den := by ring
    · have hmax : max (qlog2 num den - 52) (-1074 : Int) = -1074 := by
        apply max_eq_right
        omega
      rw [hmax] at he ⊢
      have hE : qlog2 num den < -1022 := by omega
      have h2 := hup2 (by omega)
      rw [bpow_eq, show (-(-1074 : Int)).toNat = 1074 by omega]
      by_cases hP : 1074 ≤ (-(qlog2 num den + 1)).toNat
      · calc num * 2 ^ 1074
            ≤ num * 2 ^ (-(qlog2 num den + 1)).toNat :=
              Nat.mul_le_mul_left num (Nat.pow_le_pow_right (by omega) hP)
          _ < den := h2
          _ ≤ 2 ^ 53 * den := by
              have : 1 ≤ 2 ^ 53 := Nat.one_le_two_pow
              nlinarith
      · push_neg at hP
        have ht : 1074 = (-(qlog2 num den + 1)).toNat
            + (1074 - (-(qlog2 num den + 1)).toNat) := by omega
        rw [ht, pow_add, ← Nat.mul_assoc]
        have hmul := (Nat.mul_lt_mul_right
          (Nat.pos_pow_of_pos (1074 - (-(qlog2 num den + 1)).toNat) (show 0 < 2 by omega))).mpr h2
        calc num * 2 ^ (-(qlog2 num den + 1)).toNat
              * 2 ^ (1074 - (-(qlog2 num den + 1)).toNat)
            < den * 2 ^ (1074 - (-(qlog2 num den + 1)).toNat) := hmul
          _ ≤ den * 2 ^ 52 := by
              refine Nat.mul_le_mul_left den (Nat.pow_le_pow_right (by omega) ?_)
              omega
          _ ≤ 2 ^ 53 * den := by
              have h52 : (2 : Nat) ^ 53 = 2 * 2 ^ 52 := by ring
              nlinarith

theorem strtodCore_wf (neg : Bool) (N : Nat) (E10 : Int) :
    (strtodCore neg N E10).exp ≤ 2047 ∧ (strtodCore neg N E10).frac < 2 ^ 52 := by
  unfold strtodCore
  dsimp only []
  by_cases hN : N = 0
  · rw [if_pos hN]
    exact ⟨by norm_num, by norm_num⟩
  · rw [if_neg hN]
    set num := (if 0 ≤ E10 then N * bpow 10 E10.toNat else N) with hnumdef
    set den := (if 0 ≤ E10 then 1 else bpow 10 (-E10).toNat) with hdendef
    have hnum : 1 ≤ num := by
      rw [hnumdef]
      split
      · have h10 : 1 ≤ bpow 10 E10.toNat := by
          rw [bpow_eq]; exact Nat.one_le_pow _ _ (by omega)
        have hN1 : 1 ≤ N := by omega
        nlinarith
      · omega
    have hden : 1 ≤ den := by
      rw [hdendef]
      split
      · omega
      · rw [bpow_eq]; exact Nat.one_le_pow _ _ (by omega)
    set e := max (qlog2 num den - 52) (-1074 : Int) with hedef
    set n := (if 0 ≤ e then num else num * bpow 2 (-e).toNat) with hndef
    set d := (if 0 ≤ e then den * bpow 2 e.toNat else den) with hddef
    have hd : 0 < d := by
      rw [hddef]
      split
      · have h2 : 1 ≤ bpow 2 e.toNat := by
          rw [bpow_eq]; exact Nat.one_le_pow _ _ (by omega)
        nlinarith
      · omega
    have hlt : n < 2 ^ 53 * d := by
      rw [hndef, hddef, hedef]
      exact strtod_n_lt num den hnum hden
    have hsig0 := rdiv_le n d (2 ^ 53) hd hlt
    set sig0 := rdiv n d with hs0
    set sig := (if sig0 = 2 ^ 53 then 2 ^ 52 else sig0) with hsigdef
    set e' := (if sig0 = 2 ^ 53 then e + 1 else e) with hepdef
    have hsig : sig < 2 ^ 53 := by
      rw [hsigdef]
      split
      · norm_num
      · rename_i hne
        omega
    have h5253 : (2 : Nat) ^ 53 = 2 * 2 ^ 52 := by ring
    constructor
    · split
      · exact le_rfl
      · rename_i hov
        split
        · exact Nat.zero_le _
        · show (e' + 1075).toNat ≤ 2047
          omega
    · split
      · show (0 : Nat) < 2 ^ 52
        norm_num
      · split
        · rename_i hslt
          exact hslt
        · rename_i hsge
          show sig - 2 ^ 52 < 2 ^ 52
          omega

theorem ws_length (s : List Nat) :
    (cjson_parse_whitespace s).length ≤ s.length := by
  unfold cjson_parse_whitespace
  exact (List.dropWhile_sublist _).length_le

theorem hd0_ne_nil (s : List Nat) (h : hd0 s ≠ 0) : s ≠ [] := by
  cases s with
  | nil => exact absurd rfl h
  | cons b t => exact List.cons_ne_nil b t

theorem skipDigits_le (s : List Nat) : (skipDigits s).length ≤ s.length :=
  (List.dropWhile_sublist _).length_le

theorem skipDigits_lt (s : List Nat) (h : isdig (hd0 s) = true) :
    (skipDigits s).length < s.length := by
  cases s with
  | nil => exact absurd h (by decide)
  | cons b t =>
    unfold skipDigits
    rw [List.dropWhile_cons]
    rw [show hd0 (b :: t) = b from rfl] at h
    rw [if_pos h]
    have hdw : (List.dropWhile isdig t).length ≤ t.length :=
      (List.dropWhile_sublist _).length_le
    simp only [List.length_cons]
    omega

theorem cjson_string_step_consumes : ∀ (s : List Nat),
    (∀ r, cjson_string_step s = .done r → r.length < s.length) ∧
    (∀ bs r, cjson_string_step s = .emit bs r → r.length < s.length) := by
  intro s
  cases s with
  | nil =>
    constructor
    · intro r h; exact strStepRes.noConfusion h
    · intro bs r h; exact strStepRes.noConfusion h
  | cons ch p =>
    constructor
    · intro r h
      simp only [cjson_string_step] at h
      repeat' split at h
      all_goals first
        | exact strStepRes.noConfusion h
        | (cases h
           simp only [List.length_cons]
           omega)
    · intro bs r h
      simp only [cjson_string_step] at h
      repeat' split at h
      all_goals first
        | exact strStepRes.noConfusion h
        | (obtain ⟨h1, h2⟩ := strStepRes.emit.inj h
           subst h2
           simp_all only [List.length_cons]
           omega)

theorem cjson_parse_string_loop_consumes : ∀ (f : Nat) (acc s str rest : List Nat),
    cjson_parse_string_loop f acc s = .ok (str, rest) → rest.length < s.length := by
  intro f
  induction f with
  | zero =>
    intro acc s str rest h
    exact absurd h (by simp [cjson_parse_string_loop])
  | succ f ih =>
    intro acc s str rest h
    rw [cjson_parse_string_loop] at h
    cases hst : cjson_string_step s with
    | done r =>
      rw [hst] at h
      cases h
      exact (cjson_string_step_consumes s).1 _ hst
    | fail e =>
      rw [hst] at h
      exact Except.noConfusion h
    | emit bs r =>
      rw [hst] at h
      have h1 := ih _ _ _ _ h
      have h2 := (cjson_string_step_consumes s).2 bs r hst
      omega

theorem cjson_parse_string_raw_consumes (s str rest : List Nat)
    (h : cjson_parse_string_raw s = .ok (str, rest)) : rest.length < s.length := by
  unfold cjson_parse_string_raw at h
  cases s with
  | nil => exact absurd h (by simp [cjson_parse_string_loop])
  | cons c p =>
    have := cjson_parse_string_loop_consumes _ _ _ _ _ h
    simp only [List.length_cons, List.drop_succ_cons, List.drop_zero] at this ⊢
    omega

theorem cjson_parse_str_consumes (s lit : List Nat) (t : cjson_value)
    (v : cjson_value) (rest : List Nat)
    (h : cjson_parse_str s lit t = .ok (v, rest)) :
    rest.length = s.length - lit.length ∧ lit.length ≤ s.length := by
  unfold cjson_parse_str at h
  split at h
  · rename_i htake
    cases h
    have hlen : (s.take lit.length).length = lit.length := by rw [htake]
    rw [List.length_take] at hlen
    rw [List.length_drop]
    omega
  · exact Except.noConfusion h

theorem cjson_parse_number_consumes : ∀ (s : List Nat) (n : F64) (rest : List Nat),
    cjson_parse_number s = .ok (n, rest) → rest.length < s.length := by
  intro s n rest h
  unfold cjson_parse_number at h
  dsimp only [] at h
  set p0 := (if hd0 s = 45 then s.drop 1 else s) with hp0def
  have hp0le : p0.length ≤ s.length := by
    rw [hp0def]
    split
    · rw [List.length_drop]; omega
    · exact le_rfl
  cases hp1 : (if hd0 p0 = 48 then some (p0.drop 1)
      else if isdig19 (hd0 p0) then some (skipDigits p0) else none) with
  | none => rw [hp1] at h; exact Except.noConfusion h
  | some p1 =>
    rw [hp1] at h
    dsimp only [] at h
    have hp1lt : p1.length < p0.length := by
      split at hp1
      · rename_i h48
        cases Option.some.inj hp1
        have hne := hd0_ne_nil p0 (by omega)
        rw [List.length_drop]
        have : 0 < p0.length := List.length_pos.mpr hne
        omega
      · split at hp1
        · rename_i hdig
          cases Option.some.inj hp1
          refine skipDigits_lt p0 ?_
          unfold isdig isdig19 at *
          simp only [Bool.and_eq_true, decide_eq_true_eq] at *
          omega
        · exact Option.noConfusion hp1
    cases hp2 : (if hd0 p1 = 46 then
        (if isdig (hd0 (p1.drop 1)) then some (skipDigits (p1.drop 1)) else none)
      else some p1) with
    | none => rw [hp2] at h; exact Except.noConfusion h
    | some p2 =>
      rw [hp2] at h
      dsimp only [] at h
      have hp2le : p2.length ≤ p1.length := by
        split at hp2
        · split at hp2
          · cases Option.some.inj hp2
            have h1 := skipDigits_le (p1.drop 1)
            rw [List.length_drop] at h1
            omega
          · exact Option.noConfusion hp2
        · cases Option.some.inj hp2
          exact le_rfl
      cases hp3 : (if hd0 p2 = 101 ∨ hd0 p2 = 69 then
          (let q := if hd0 (p2.drop 1) = 43 ∨ hd0 (p2.drop 1) = 45
                    then p2.drop 2 else p2.drop 1
           if isdig (hd0 q) then some (skipDigits q) else none)
        else some p2) with
      | none => rw [hp3] at h; exact Except.noConfusion h
      | some p3 =>
        rw [hp3] at h
        dsimp only [] at h
        have hp3le : p3.length ≤ p2.length := by
          split at hp3
          · dsimp only [] at hp3
            split at hp3 <;> split at hp3 <;>
              first
                | exact Option.noConfusion hp3
                | (cases Option.some.inj hp3
                   have h1 := skipDigits_le (List.drop 2 p2)
                   have h2 := skipDigits_le (List.drop 1 p2)
                   rw [List.length_drop] at h1 h2
                   omega)
          · cases Option.some.inj hp3
            exact le_rfl
        split at h
        · exact Except.noConfusion h
        · cases h
          omega

theorem parser_consumes : ∀ (f : Nat),
    (∀ s v rest, cjson_parse_value f s = some (.ok (v, rest)) →
      rest.length < s.length) ∧
    (∀ s v rest, hd0 s = 91 → cjson_parse_array f s = some (.ok (v, rest)) →
      rest.length < s.length) ∧
    (∀ acc s v rest, cjson_parse_array_loop f acc s = some (.ok (v, rest)) →
      rest.length < s.length) ∧
    (∀ s v rest, hd0 s = 123 → cjson_parse_object f s = some (.ok (v, rest)) →
      rest.length < s.length) ∧
    (∀ acc s v rest, cjson_parse_object_loop f acc s = some (.ok (v, rest)) →
      rest.length < s.length) := by
  intro f
  induction f with
  | zero =>
    exact ⟨fun s v rest h => absurd h (by simp [cjson_parse_value]),
           fun s v rest _ h => absurd h (by simp [cjson_parse_array]),
           fun acc s v rest h => absurd h (by simp [cjson_parse_array_loop]),
           fun s v rest _ h => absurd h (by simp [cjson_parse_object]),
           fun acc s v rest h => absurd h (by simp [cjson_parse_object_loop])⟩
  | succ f ih =>
    obtain ⟨ihv, iha, ihal, iho, ihol⟩ := ih
    have hPv : ∀ s v rest, cjson_parse_value (f + 1) s = some (.ok (v, rest)) →
        rest.length < s.length := by
      intro s v rest h
      rw [cjson_parse_value] at h
      split at h
      · rename_i heq
        have h2 := cjson_parse_str_consumes s _ _ v rest (Option.some.inj h)
        simp only [List.length_cons, List.length_nil] at h2
        have := hd0_ne_nil s (by omega)
        have := List.length_pos.mpr this
        omega
      · rename_i heq
        have h2 := cjson_parse_str_consumes s _ _ v rest (Option.some.inj h)
        simp only [List.length_cons, List.length_nil] at h2
        omega
      · rename_i heq
        have h2 := cjson_parse_str_consumes s _ _ v rest (Option.some.inj h)
        simp only [List.length_cons, List.length_nil] at h2
        omega
      · have h2 := Option.some.inj h
        unfold cjson_parse_string at h2
        cases hraw : cjson_parse_string_raw s with
        | error e => rw [hraw] at h2; exact Except.noConfusion h2
        | ok pr =>
          rw [hraw] at h2
          obtain ⟨str, r0⟩ := pr
          cases h2
          exact cjson_parse_string_raw_consumes s str rest hraw
      · rename_i heq
        exact iha s v rest heq h
      · rename_i heq
        exact iho s v rest heq h
      · exact absurd (Option.some.inj h) (by simp)
      · have h2 := Option.some.inj h
        cases hnum : cjson_parse_number s with
        | error e => rw [hnum] at h2; exact Except.noConfusion h2
        | ok pr =>
          rw [hnum] at h2
          obtain ⟨n, r0⟩ := pr
          cases h2
          exact cjson_parse_number_consumes s n rest hnum
    have hPa : ∀ s v rest, hd0 s = 91 →
        cjson_parse_array (f + 1) s = some (.ok (v, rest)) →
        rest.length < s.length := by
      intro s v rest h91 h
      have hne := hd0_ne_nil s (by omega)
      have hpos := List.length_pos.mpr hne
      rw [cjson_parse_array] at h
      have hws := ws_length (s.drop 1)
      rw [List.length_drop] at hws
      split at h
      · have h2 := Option.some.inj h
        cases h2
        rw [List.length_drop]
        rename_i hq
        have := hd0_ne_nil (cjson_parse_whitespace (s.drop 1)) (by omega)
        have := List.length_pos.mpr this
        omega
      · have := ihal _ _ _ _ h
        omega
    have hLa : ∀ acc s v rest,
        cjson_parse_array_loop (f + 1) acc s = some (.ok (v, rest)) →
        rest.length < s.length := by
      intro acc s v rest h
      rw [cjson_parse_array_loop] at h
      cases hpv : cjson_parse_value f s with
      | none => rw [hpv] at h; exact Option.noConfusion h
      | some res =>
        rw [hpv] at h
        cases res with
        | error e => exact absurd (Option.some.inj h) (by simp)
        | ok pr =>
          obtain ⟨v0, r0⟩ := pr
          dsimp only [] at h
          have h0 := ihv s v0 r0 hpv
          have hws := ws_length r0
          split at h
          · rename_i hq
            have := hd0_ne_nil (cjson_parse_whitespace r0) (by omega)
            have := List.length_pos.mpr this
            have h2 := ihal _ _ _ _ h
            have hws2 := ws_length ((cjson_parse_whitespace r0).drop 1)
            rw [List.length_drop] at hws2
            omega
          · split at h
            · have h2 := Option.some.inj h
              cases h2
              rw [List.length_drop]
              omega
            · exact absurd (Option.some.inj h) (by simp)
    have hPo : ∀ s v rest, hd0 s = 123 →
        cjson_parse_object (f + 1) s = some (.ok (v, rest)) →
        rest.length < s.length := by
      intro s v rest h123 h
      have hne := hd0_ne_nil s (by omega)
      have hpos := List.length_pos.mpr hne
      rw [cjson_parse_object] at h
      have hws := ws_length (s.drop 1)
      rw [List.length_drop] at hws
      split at h
      · have h2 := Option.some.inj h
        cases h2
        rw [List.length_drop]
        rename_i hq
        have := hd0_ne_nil (cjson_parse_whitespace (s.drop 1)) (by omega)
        have := List.length_pos.mpr this
        omega
      · have := ihol _ _ _ _ h
        omega
    have hLo : ∀ acc s v rest,
        cjson_parse_object_loop (f + 1) acc s = some (.ok (v, rest)) →
        rest.length < s.length := by
      intro acc s v rest h
      rw [cjson_parse_object_loop] at h
      split at h
      · exact absurd (Option.some.inj h) (by simp)
      · rename_i hq34
        cases hraw : cjson_parse_string_raw s with
        | error e => rw [hraw] at h; exact absurd (Option.some.inj h) (by simp)
        | ok pr =>
          rw [hraw] at h
          obtain ⟨key, r0⟩ := pr
          dsimp only [] at h
          have h0 := cjson_parse_string_raw_consumes s key r0 hraw
          have hws := ws_length r0
          split at h
          · exact absurd (Option.some.inj h) (by simp)
          · rename_i hq58
            cases hpv : cjson_parse_value f
                (cjson_parse_whitespace ((cjson_parse_whitespace r0).drop 1)) with
            | none => rw [hpv] at h; exact Option.noConfusion h
            | some res =>
              rw [hpv] at h
              cases res with
              | error e => exact absurd (Option.some.inj h) (by simp)
              | ok pr2 =>
                obtain ⟨v0, r2⟩ := pr2
                dsimp only [] at h
                have h1 := ihv _ v0 r2 hpv
                have hws2 := ws_length ((cjson_parse_whitespace r0).drop 1)
                rw [List.length_drop] at hws2
                have hws3 := ws_length r2
                split at h
                · rename_i hq44
                  have := hd0_ne_nil (cjson_parse_whitespace r2) (by omega)
                  have := List.length_pos.mpr this
                  have h2 := ihol _ _ _ _ h
                  have hws4 := ws_length ((cjson_parse_whitespace r2).drop 1)
                  rw [List.length_drop] at hws4
                  omega
                · split at h
                  · have h2 := Option.some.inj h
                    cases h2
                    rw [List.length_drop]
                    omega
                  · exact absurd (Option.some.inj h) (by simp)
    exact ⟨hPv, hPa, hLa, hPo, hLo⟩

theorem parser_fuel : ∀ (f : Nat),
    (∀ s, 3 * s.length + 1 ≤ f → cjson_parse_value f s ≠ none) ∧
    (∀ s, hd0 s = 91 → 3 * s.length ≤ f → cjson_parse_array f s ≠ none) ∧
    (∀ acc s, 3 * s.length + 2 ≤ f → cjson_parse_array_loop f acc s ≠ none) ∧
    (∀ s, hd0 s = 123 → 3 * s.length ≤ f → cjson_parse_object f s ≠ none) ∧
    (∀ acc s, 3 * s.length + 2 ≤ f → cjson_parse_object_loop f acc s ≠ none) := by
  intro f
  induction f with
  | zero =>
    refine ⟨fun s hle => absurd hle (by omega),
            fun s h91 hle => ?_,
            fun acc s hle => absurd hle (by omega),
            fun s h123 hle => ?_,
            fun acc s hle => absurd hle (by omega)⟩
    · have hz : s.length = 0 := by omega
      rw [List.length_eq_zero] at hz
      subst hz
      simp [hd0] at h91
    · have hz : s.length = 0 := by omega
      rw [List.length_eq_zero] at hz
      subst hz
      simp [hd0] at h123
  | succ f ih =>
    obtain ⟨ihv, iha, ihal, iho, ihol⟩ := ih
    have hPv : ∀ s, 3 * s.length + 1 ≤ f + 1 → cjson_parse_value (f + 1) s ≠ none := by
      intro s hle
      rw [cjson_parse_value]
      split
      · simp
      · simp
      · simp
      · simp
      · rename_i heq
        exact iha s heq (by omega)
      · rename_i heq
        exact iho s heq (by omega)
      · simp
      · simp
    have hPa : ∀ s, hd0 s = 91 → 3 * s.length ≤ f + 1 →
        cjson_parse_array (f + 1) s ≠ none := by
      intro s h91 hle
      have hne := hd0_ne_nil s (by omega)
      have hpos := List.length_pos.mpr hne
      rw [cjson_parse_array]
      have hws := ws_length (s.drop 1)
      rw [List.length_drop] at hws
      split
      · simp
      · exact ihal [] _ (by omega)
    have hLa : ∀ acc s, 3 * s.length + 2 ≤ f + 1 →
        cjson_parse_array_loop (f + 1) acc s ≠ none := by
      intro acc s hle
      rw [cjson_parse_array_loop]
      cases hpv : cjson_parse_value f s with
      | none => exact absurd hpv (ihv s (by omega))
      | some res =>
        cases res with
        | error e => simp
        | ok pr =>
          obtain ⟨v0, r0⟩ := pr
          dsimp only []
          have h0 := (parser_consumes f).1 s v0 r0 hpv
          have hws := ws_length r0
          split
          · rename_i hq
            have := hd0_ne_nil (cjson_parse_whitespace r0) (by omega)
            have := List.length_pos.mpr this
            have hws2 := ws_length ((cjson_parse_whitespace r0).drop 1)
            rw [List.length_drop] at hws2
            exact ihal _ _ (by omega)
          · split
            · simp
            · simp
    have hPo : ∀ s, hd0 s = 123 → 3 * s.length ≤ f + 1 →
        cjson_parse_object (f + 1) s ≠ none := by
      intro s h123 hle
      have hne := hd0_ne_nil s (by omega)
      have hpos := List.length_pos.mpr hne
      rw [cjson_parse_object]
      have hws := ws_length (s.drop 1)
      rw [List.length_drop] at hws
      split
      · simp
      · exact ihol [] _ (by omega)
    have hLo : ∀ acc s, 3 * s.length + 2 ≤ f + 1 →
        cjson_parse_object_loop (f + 1) acc s ≠ none := by
      intro acc s hle
      rw [cjson_parse_object_loop]
      split
      · simp
      · rename_i hq34
        cases hraw : cjson_parse_string_raw s with
        | error e => simp
        | ok pr =>
          obtain ⟨key, r0⟩ := pr
          dsimp only []
          have h0 := cjson_parse_string_raw_consumes s key r0 hraw
          have hws := ws_length r0
          split
          · simp
          · rename_i hq58
            have hws2 := ws_length ((cjson_parse_whitespace r0).drop 1)
            rw [List.length_drop] at hws2
            cases hpv : cjson_parse_value f
                (cjson_parse_whitespace ((cjson_parse_whitespace r0).drop 1)) with
            | none => exact absurd hpv (ihv _ (by omega))
            | some res =>
              cases res with
              | error e => simp
              | ok pr2 =>
                obtain ⟨v0, r2⟩ := pr2
                dsimp only []
                have h1 := (parser_consumes f).1 _ v0 r2 hpv
                have hws3 := ws_length r2
                split
                · rename_i hq44
                  have := hd0_ne_nil (cjson_parse_whitespace r2) (by omega)
                  have := List.length_pos.mpr this
                  have hws4 := ws_length ((cjson_parse_whitespace r2).drop 1)
                  rw [List.length_drop] at hws4
                  exact ihol _ _ (by omega)
                · split
                  · simp
                  · simp
    exact ⟨hPv, hPa, hLa, hPo, hLo⟩

theorem cjson_string_step_fail_ne : ∀ (s : List Nat) (e : cjson_state),
    cjson_string_step s = .fail e → e ≠ .ok ∧ e ≠ .parse_null := by
  intro s e h
  cases s with
  | nil =>
    have he := strStepRes.fail.inj h
    subst he
    exact ⟨by decide, by decide⟩
  | cons ch p =>
    simp only [cjson_string_step] at h
    repeat' split at h
    all_goals first
      | exact strStepRes.noConfusion h
      | (have he := strStepRes.fail.inj h
         subst he
         exact ⟨by decide, by decide⟩)

theorem cjson_parse_string_loop_errors : ∀ (f : Nat) (acc s : List Nat)
    (e : cjson_state), cjson_parse_string_loop f acc s = .error e →
    e ≠ .ok ∧ e ≠ .parse_null := by
  intro f
  induction f with
  | zero =>
    intro acc s e h
    rw [cjson_parse_string_loop] at h
    have he := Except.error.inj h.symm
    subst he
    exact ⟨by decide, by decide⟩
  | succ f ih =>
    intro acc s e h
    rw [cjson_parse_string_loop] at h
    cases hst : cjson_string_step s with
    | done r => rw [hst] at h; exact Except.noConfusion h
    | fail e2 =>
      rw [hst] at h
      have he := Except.error.inj h
      subst he
      exact cjson_string_step_fail_ne s _ hst
    | emit bs r =>
      rw [hst] at h
      exact ih _ _ _ h

theorem cjson_parse_string_raw_errors (s : List Nat) (e : cjson_state)
    (h : cjson_parse_string_raw s = .error e) : e ≠ .ok ∧ e ≠ .parse_null := by
  unfold cjson_parse_string_raw at h
  exact cjson_parse_string_loop_errors _ _ _ _ h

theorem cjson_parse_number_errors : ∀ (s : List Nat) (e : cjson_state),
    cjson_parse_number s = .error e → e ≠ .ok ∧ e ≠ .parse_null := by
  intro s e h
  unfold cjson_parse_number at h
  dsimp only [] at h
  set p0 := (if hd0 s = 45 then s.drop 1 else s) with hp0def
  cases hp1 : (if hd0 p0 = 48 then some (p0.drop 1)
      else if isdig19 (hd0 p0) then some (skipDigits p0) else none) with
  | none =>
    rw [hp1] at h
    have he := Except.error.inj h
    subst he
    exact ⟨by decide, by decide⟩
  | some p1 =>
    rw [hp1] at h
    dsimp only [] at h
    cases hp2 : (if hd0 p1 = 46 then
        (if isdig (hd0 (p1.drop 1)) then some (skipDigits (p1.drop 1)) else none)
      else some p1) with
    | none =>
      rw [hp2] at h
      have he := Except.error.inj h
      subst he
      exact ⟨by decide, by decide⟩
    | some p2 =>
      rw [hp2] at h
      dsimp only [] at h
      cases hp3 : (if hd0 p2 = 101 ∨ hd0 p2 = 69 then
          (let q := if hd0 (p2.drop 1) = 43 ∨ hd0 (p2.drop 1) = 45
                    then p2.drop 2 else p2.drop 1
           if isdig (hd0 q) then some (skipDigits q) else none)
        else some p2) with
      | none =>
        rw [hp3] at h
        have he := Except.error.inj h
        subst he
        exact ⟨by decide, by decide⟩
      | some p3 =>
        rw [hp3] at h
        dsimp only [] at h
        split at h
        · have he := Except.error.inj h
          subst he
          exact ⟨by decide, by decide⟩
        · exact Except.noConfusion h

theorem parser_errors : ∀ (f : Nat),
    (∀ s e, cjson_parse_value f s = some (.error e) → e ≠ .ok ∧ e ≠ .parse_null) ∧
    (∀ s e, cjson_parse_array f s = some (.error e) → e ≠ .ok ∧ e ≠ .parse_null) ∧
    (∀ acc s e, cjson_parse_array_loop f acc s = some (.error e) →
      e ≠ .ok ∧ e ≠ .parse_null) ∧
    (∀ s e, cjson_parse_object f s = some (.error e) → e ≠ .ok ∧ e ≠ .parse_null) ∧
    (∀ acc s e, cjson_parse_object_loop f acc s = some (.error e) →
      e ≠ .ok ∧ e ≠ .parse_null) := by
  intro f
  induction f with
  | zero =>
    exact ⟨fun s e h => absurd h (by simp [cjson_parse_value]),
           fun s e h => absurd h (by simp [cjson_parse_array]),
           fun acc s e h => absurd h (by simp [cjson_parse_array_loop]),
           fun s e h => absurd h (by simp [cjson_parse_object]),
           fun acc s e h => absurd h (by simp [cjson_parse_object_loop])⟩
  | succ f ih =>
    obtain ⟨ihv, iha, ihal, iho, ihol⟩ := ih
    have hstr : ∀ s lit t e, cjson_parse_str s lit t = .error e →
        e ≠ .ok ∧ e ≠ .parse_null := by
      intro s lit t e h
      unfold cjson_parse_str at h
      split at h
      · exact Except.noConfusion h
      · have he := Except.error.inj h
        subst he
        exact ⟨by decide, by decide⟩
    have hPv : ∀ s e, cjson_parse_value (f + 1) s = some (.error e) →
        e ≠ .ok ∧ e ≠ .parse_null := by
      intro s e h
      rw [cjson_parse_value] at h
      split at h
      · exact hstr s _ _ e (Option.some.inj h)
      · exact hstr s _ _ e (Option.some.inj h)
      · exact hstr s _ _ e (Option.some.inj h)
      · have h2 := Option.some.inj h
        unfold cjson_parse_string at h2
        cases hraw : cjson_parse_string_raw s with
        | error e2 =>
          rw [hraw] at h2
          have he := Except.error.inj h2
          subst he
          exact cjson_parse_string_raw_errors s _ hraw
        | ok pr =>
          rw [hraw] at h2
          obtain ⟨str, r0⟩ := pr
          exact Except.noConfusion h2
      · exact iha s e h
      · exact iho s e h
      · have he := Except.error.inj (Option.some.inj h)
        subst he
        exact ⟨by decide, by decide⟩
      · have h2 := Option.some.inj h
        cases hnum : cjson_parse_number s with
        | error e2 =>
          rw [hnum] at h2
          have he := Except.error.inj h2
          subst he
          exact cjson_parse_number_errors s _ hnum
        | ok pr =>
          rw [hnum] at h2
          obtain ⟨n, r0⟩ := pr
          exact Except.noConfusion h2
    have hPa : ∀ s e, cjson_parse_array (f + 1) s = some (.error e) →
        e ≠ .ok ∧ e ≠ .parse_null := by
      intro s e h
      rw [cjson_parse_array] at h
      split at h
      · exact absurd (Option.some.inj h) (by simp)
      · exact ihal _ _ _ h
    have hLa : ∀ acc s e, cjson_parse_array_loop (f + 1) acc s = some (.error e) →
        e ≠ .ok ∧ e ≠ .parse_null := by
      intro acc s e h
      rw [cjson_parse_array_loop] at h
      cases hpv : cjson_parse_value f s with
      | none => rw [hpv] at h; exact Option.noConfusion h
      | some res =>
        rw [hpv] at h
        cases res with
        | error e2 =>
          have he := Except.error.inj (Option.some.inj h)
          subst he
          exact ihv s _ hpv
        | ok pr =>
          obtain ⟨v0, r0⟩ := pr
          dsimp only [] at h
          split at h
          · exact ihal _ _ _ h
          · split at h
            · exact absurd (Option.some.inj h) (by simp)
            · have he := Except.error.inj (Option.some.inj h)
              subst he
              exact ⟨by decide, by decide⟩
    have hPo : ∀ s e, cjson_parse_object (f + 1) s = some (.error e) →
        e ≠ .ok ∧ e ≠ .parse_null := by
      intro s e h
      rw [cjson_parse_object] at h
      split at h
      · exact absurd (Option.some.inj h) (by simp)
      · exact ihol _ _ _ h
    have hLo : ∀ acc s e, cjson_parse_object_loop (f + 1) acc s = some (.error e) →
        e ≠ .ok ∧ e ≠ .parse_null := by
      intro acc s e h
      rw [cjson_parse_object_loop] at h
      split at h
      · have he := Except.error.inj (Option.some.inj h)
        subst he
        exact ⟨by decide, by decide⟩
      · cases hraw : cjson_parse_string_raw s with
        | error e2 =>
          rw [hraw] at h
          have he := Except.error.inj (Option.some.inj h)
          subst he
          exact cjson_parse_string_raw_errors s _ hraw
        | ok pr =>
          rw [hraw] at h
          obtain ⟨key, r0⟩ := pr
          dsimp only [] at h
          split at h
          · have he := Except.error.inj (Option.some.inj h)
            subst he
            exact ⟨by decide, by decide⟩
          · cases hpv : cjson_parse_value f
                (cjson_parse_whitespace ((cjson_parse_whitespace r0).drop 1)) with
            | none => rw [hpv] at h; exact Option.noConfusion h
            | some res =>
              rw [hpv] at h
              cases res with
              | error e2 =>
                have he := Except.error.inj (Option.some.inj h)
                subst he
                exact ihv _ _ hpv
              | ok pr2 =>
                obtain ⟨v0, r2⟩ := pr2
                dsimp only [] at h
                split at h
                · exact ihol _ _ _ h
                · split at h
                  · exact absurd (Option.some.inj h) (by simp)
                  · have he := Except.error.inj (Option.some.inj h)
                    subst he
                    exact ⟨by decide, by decide⟩
    exact ⟨hPv, hPa, hLa, hPo, hLo⟩

theorem strtodTok_wf (t : List Nat) :
    (strtodTok t).exp ≤ 2047 ∧ (strtodTok t).frac < 2 ^ 52 := by
  unfold strtodTok
  dsimp only []
  exact strtodCore_wf _ _ _

theorem cjson_parse_number_wf : ∀ (s : List Nat) (n : F64) (rest : List Nat),
    cjson_parse_number s = .ok (n, rest) → wfValue (.number n) = true := by
  intro s n rest h
  unfold cjson_parse_number at h
  dsimp only [] at h
  cases hp1 : (if hd0 (if hd0 s = 45 then s.drop 1 else s) = 48
      then some ((if hd0 s = 45 then s.drop 1 else s).drop 1)
      else if isdig19 (hd0 (if hd0 s = 45 then s.drop 1 else s))
      then some (skipDigits (if hd0 s = 45 then s.drop 1 else s)) else none) with
  | none => rw [hp1] at h; exact Except.noConfusion h
  | some p1 =>
    rw [hp1] at h
    dsimp only [] at h
    cases hp2 : (if hd0 p1 = 46 then
        (if isdig (hd0 (p1.drop 1)) then some (skipDigits (p1.drop 1)) else none)
      else some p1) with
    | none => rw [hp2] at h; exact Except.noConfusion h
    | some p2 =>
      rw [hp2] at h
      dsimp only [] at h
      cases hp3 : (if hd0 p2 = 101 ∨ hd0 p2 = 69 then
          (let q := if hd0 (p2.drop 1) = 43 ∨ hd0 (p2.drop 1) = 45
                    then p2.drop 2 else p2.drop 1
           if isdig (hd0 q) then some (skipDigits q) else none)
        else some p2) with
      | none => rw [hp3] at h; exact Except.noConfusion h
      | some p3 =>
        rw [hp3] at h
        dsimp only [] at h
        split at h
        · exact Except.noConfusion h
        · rename_i hexp
          have h2 := Except.ok.inj h
          have hn : n = strtodTok (s.take (s.length - p3.length)) :=
            (congrArg Prod.fst h2).symm
          subst hn
          obtain ⟨hw1, hw2⟩ := strtodTok_wf (s.take (s.length - p3.length))
          simp only [wfValue, Bool.and_eq_true, decide_eq_true_eq]
          refine ⟨?_, ?_⟩
          · unfold F64.finite
            simp only [decide_eq_true_eq]
            omega
          · exact ⟨hw1, hw2⟩

theorem wfValueL_append (es : List cjson_value) (v : cjson_value) :
    wfValueL (es ++ [v]) = (wfValueL es && wfValue v) := by
  induction es with
  | nil =>
    rw [List.nil_append, show wfValueL [v] = (wfValue v && wfValueL []) from rfl,
        show wfValueL [] = true from rfl]
    simp
  | cons w ws ih =>
    rw [List.cons_append, show wfValueL (w :: (ws ++ [v]))
        = (wfValue w && wfValueL (ws ++ [v])) from rfl, ih,
        show wfValueL (w :: ws) = (wfValue w && wfValueL ws) from rfl]
    simp [Bool.and_assoc]

theorem wfValueM_append (ms : List (List Nat × cjson_value))
    (k : List Nat) (v : cjson_value) :
    wfValueM (ms ++ [(k, v)]) = (wfValueM ms && wfValue v) := by
  induction ms with
  | nil =>
    rw [List.nil_append, show wfValueM [(k, v)] = (wfValue v && wfValueM []) from rfl,
        show wfValueM [] = true from rfl]
    simp
  | cons m ms ih =>
    rw [List.cons_append, show wfValueM (m :: (ms ++ [(k, v)]))
        = (wfValue m.2 && wfValueM (ms ++ [(k, v)])) from rfl, ih,
        show wfValueM (m :: ms) = (wfValue m.2 && wfValueM ms) from rfl]
    simp [Bool.and_assoc]

theorem parser_wf : ∀ (f : Nat),
    (∀ s v rest, cjson_parse_value f s = some (.ok (v, rest)) →
      wfValue v = true) ∧
    (∀ s v rest, cjson_parse_array f s = some (.ok (v, rest)) →
      wfValue v = true) ∧
    (∀ acc s v rest, wfValueL acc = true →
      cjson_parse_array_loop f acc s = some (.ok (v, rest)) → wfValue v = true) ∧
    (∀ s v rest, cjson_parse_object f s = some (.ok (v, rest)) →
      wfValue v = true) ∧
    (∀ acc s v rest, wfValueM acc = true →
      cjson_parse_object_loop f acc s = some (.ok (v, rest)) → wfValue v = true) := by
  intro f
  induction f with
  | zero =>
    exact ⟨fun s v rest h => absurd h (by simp [cjson_parse_value]),
           fun s v rest h => absurd h (by simp [cjson_parse_array]),
           fun acc s v rest _ h => absurd h (by simp [cjson_parse_array_loop]),
           fun s v rest h => absurd h (by simp [cjson_parse_object]),
           fun acc s v rest _ h => absurd h (by simp [cjson_parse_object_loop])⟩
  | succ f ih =>
    obtain ⟨ihv, iha, ihal, iho, ihol⟩ := ih
    have hstr : ∀ s lit (t : cjson_value) v rest, wfValue t = true →
        cjson_parse_str s lit t = .ok (v, rest) → wfValue v = true := by
      intro s lit t v rest hwt h
      unfold cjson_parse_str at h
      split at h
      · have h2 := Except.ok.inj h
        have : t = v := congrArg Prod.fst h2
        rw [← this]
        exact hwt
      · exact Except.noConfusion h
    have hPv : ∀ s v rest, cjson_parse_value (f + 1) s = some (.ok (v, rest)) →
        wfValue v = true := by
      intro s v rest h
      rw [cjson_parse_value] at h
      split at h
      · exact hstr s _ .vtrue v rest rfl (Option.some.inj h)
      · exact hstr s _ .vfalse v rest rfl (Option.some.inj h)
      · exact hstr s _ .null v rest rfl (Option.some.inj h)
      · have h2 := Option.some.inj h
        unfold cjson_parse_string at h2
        cases hraw : cjson_parse_string_raw s with
        | error e => rw [hraw] at h2; exact Except.noConfusion h2
        | ok pr =>
          rw [hraw] at h2
          obtain ⟨str, r0⟩ := pr
          have h3 := Except.ok.inj h2
          have : cjson_value.vstring str = v := congrArg Prod.fst h3
          rw [← this]
          rfl
      · exact iha s v rest h
      · exact iho s v rest h
      · exact absurd (Option.some.inj h) (by simp)
      · have h2 := Option.some.inj h
        cases hnum : cjson_parse_number s with
        | error e => rw [hnum] at h2; exact Except.noConfusion h2
        | ok pr =>
          rw [hnum] at h2
          obtain ⟨n, r0⟩ := pr
          have h3 := Except.ok.inj h2
          have : cjson_value.number n = v := congrArg Prod.fst h3
          rw [← this]
          exact cjson_parse_number_wf s n r0 hnum
    have hPa : ∀ s v rest, cjson_parse_array (f + 1) s = some (.ok (v, rest)) →
        wfValue v = true := by
      intro s v rest h
      rw [cjson_parse_array] at h
      split at h
      · have h2 := Except.ok.inj (Option.some.inj h)
        have : cjson_value.varray [] = v := congrArg Prod.fst h2
        rw [← this]
        rfl
      · exact ihal [] _ v rest rfl h
    have hLa : ∀ acc s v rest, wfValueL acc = true →
        cjson_parse_array_loop (f + 1) acc s = some (.ok (v, rest)) →
        wfValue v = true := by
      intro acc s v rest hacc h
      rw [cjson_parse_array_loop] at h
      cases hpv : cjson_parse_value f s with
      | none => rw [hpv] at h; exact Option.noConfusion h
      | some res =>
        rw [hpv] at h
        cases res with
        | error e => exact absurd (Option.some.inj h) (by simp)
        | ok pr =>
          obtain ⟨v0, r0⟩ := pr
          dsimp only [] at h
          have hw0 := ihv s v0 r0 hpv
          have hacc1 : wfValueL (acc ++ [v0]) = true := by
            rw [wfValueL_append, Bool.and_eq_true]
            exact ⟨hacc, hw0⟩
          split at h
          · exact ihal _ _ v rest hacc1 h
          · split at h
            · have h2 := Except.ok.inj (Option.some.inj h)
              have : cjson_value.varray (acc ++ [v0]) = v := congrArg Prod.fst h2
              rw [← this]
              exact hacc1
            · exact absurd (Option.some.inj h) (by simp)
    have hPo : ∀ s v rest, cjson_parse_object (f + 1) s = some (.ok (v, rest)) →
        wfValue v = true := by
      intro s v rest h
      rw [cjson_parse_object] at h
      split at h
      · have h2 := Except.ok.inj (Option.some.inj h)
        have : cjson_value.vobject [] = v := congrArg Prod.fst h2
        rw [← this]
        rfl
      · exact ihol [] _ v rest rfl h
    have hLo : ∀ acc s v rest, wfValueM acc = true →
        cjson_parse_object_loop (f + 1) acc s = some (.ok (v, rest)) →
        wfValue v = true := by
      intro acc s v rest hacc h
      rw [cjson_parse_object_loop] at h
      split at h
      · exact absurd (Option.some.inj h) (by simp)
      · cases hraw : cjson_parse_string_raw s with
        | error e => rw [hraw] at h; exact absurd (Option.some.inj h) (by simp)
        | ok pr =>
          rw [hraw] at h
          obtain ⟨key, r0⟩ := pr
          dsimp only [] at h
          split at h
          · exact absurd (Option.some.inj h) (by simp)
          · cases hpv : cjson_parse_value f
                (cjson_parse_whitespace ((cjson_parse_whitespace r0).drop 1)) with
            | none => rw [hpv] at h; exact Option.noConfusion h
            | some res =>
              rw [hpv] at h
              cases res with
              | error e => exact absurd (Option.some.inj h) (by simp)
              | ok pr2 =>
                obtain ⟨v0, r2⟩ := pr2
                dsimp only [] at h
                have hw0 := ihv _ v0 r2 hpv
                have hacc1 : wfValueM (acc ++ [(key, v0)]) = true := by
                  rw [wfValueM_append, Bool.and_eq_true]
                  exact ⟨hacc, hw0⟩
                split at h
                · exact ihol _ _ v rest hacc1 h
                · split at h
                  · have h2 := Except.ok.inj (Option.some.inj h)
                    have : cjson_value.vobject (acc ++ [(key, v0)]) = v :=
                      congrArg Prod.fst h2
                    rw [← this]
                    exact hacc1
                  · exact absurd (Option.some.inj h) (by simp)
    exact ⟨hPv, hPa, hLa, hPo, hLo⟩

/-- C1: for every input byte sequence, `cjson_parse` either returns OK
together with a well-formed value tree (every node one of the seven
variants, every Number payload a well-formed finite binary64), or returns
one of the enumerated error kinds -- never the initial `CJSON_PARSE_NULL`
status and never OK -- and leaves the out value in the Null variant.  The
fuelled model parser never runs out of fuel (`parser_fuel`), every error
path yields an enumerated error (`parser_errors`), and every success
yields a well-formed tree (`parser_wf`). -/
theorem cjson_parse_total : ∀ (s : List Nat) (st : cjson_state) (v : cjson_value),
    cjson_parse s = (st, v) →
    (st = .ok ∧ wfValue v = true) ∨
    (st ≠ .ok ∧ st ≠ .parse_null ∧ v = .null) := by
  intro s st v h
  unfold cjson_parse at h
  dsimp only [] at h
  cases hpv : cjson_parse_value (parseFuel (cjson_parse_whitespace s))
      (cjson_parse_whitespace s) with
  | none =>
    exfalso
    refine (parser_fuel _).1 _ ?_ hpv
    unfold parseFuel
    omega
  | some res =>
    rw [hpv] at h
    cases res with
    | error e =>
      right
      have h2 := Prod.mk.inj h
      obtain ⟨he, hv⟩ := h2
      subst he
      subst hv
      have := (parser_errors _).1 _ _ hpv
      exact ⟨this.1, this.2, rfl⟩
    | ok pr =>
      obtain ⟨v0, rest⟩ := pr
      dsimp only [] at h
      split at h
      · right
        have h2 := Prod.mk.inj h
        obtain ⟨he, hv⟩ := h2
        subst he
        subst hv
        exact ⟨by decide, by decide, rfl⟩
      · left
        have h2 := Prod.mk.inj h
        obtain ⟨he, hv⟩ := h2
        subst he
        subst hv
        exact ⟨rfl, (parser_wf _).1 _ _ _ hpv⟩

theorem cjson_parse_total_witness :
    (cjson_state.ok = .ok ∧ wfValue .vtrue = true) ∨
    (cjson_state.ok ≠ .ok ∧ cjson_state.ok ≠ .parse_null ∧
     cjson_value.vtrue = .null) :=
  cjson_parse_total [116, 114, 117, 101] .ok .vtrue rfl
